import Mathlib

/-!
Verification of the ICE TCP transport core of OvenMediaEngine:
the `IceTcpDemultiplexer` byte-stream demultiplexer
(`ice_tcp_demultiplexer.cpp` / `.h`) and the `IceCandidate` SDP codec
(`ice_candidate.h`).

Bytes are modelled as `Nat` (with `< 256` hypotheses where byte values
matter), buffers as `List Nat`, and the stateful demultiplexer as explicit
state passing over a `Demux` structure.  External collaborators
(`IcePacketIdentifier::FindPacketType`, `StunMessage::ParseHeader`,
`ChannelDataMessage::LoadHeader`) and the bodies of `IceCandidate` methods
are not part of the three source files; they are modelled from the
specification, as marked in their doc comments.
-/

namespace IceTcp

/-- Packet type labels, mirroring `IcePacketIdentifier::PacketType`
(the values acted on by the demultiplexer). -/
inductive PacketType where
  | STUN
  | TURN_CHANNEL_DATA
  | UNKNOWN
deriving DecidableEq, Repr

/-- Mirrors `IceTcpDemultiplexer::ConnectionType`. -/
inductive ConnectionType where
  | Unknown
  | TurnRelay
  | IceTcpDirect
deriving DecidableEq, Repr

/-- Mirrors `IceTcpDemultiplexer::Packet`: a type label and the payload
bytes (`_data`). -/
structure Packet where
  type : PacketType
  payload : List Nat
deriving DecidableEq, Repr

/-- The demultiplexer state: `_buffer`, `_packets` (FIFO, head first), and
`_connection_type`. -/
structure Demux where
  buffer : List Nat
  packets : List Packet
  mode : ConnectionType
deriving DecidableEq, Repr

/-- Mirrors the fresh `IceTcpDemultiplexer()` constructor: empty buffer,
empty queue, `ConnectionType::Unknown`. -/
def initDemux : Demux := ⟨[], [], ConnectionType.Unknown⟩

/-- Modelled from the spec: the external packet-type classifier
`IcePacketIdentifier::FindPacketType` (its source is not among the three
files).  Per RFC 7983 leading-byte patterns: first byte `0x00`–`0x03` is
STUN, `0x40`–`0x4F` is TURN Channel Data, anything else (or an empty
buffer) is UNKNOWN. -/
def findPacketType (b : List Nat) : PacketType :=
  match b with
  | [] => PacketType.UNKNOWN
  | b0 :: _ =>
    if b0 ≤ 3 then PacketType.STUN
    else if 64 ≤ b0 ∧ b0 ≤ 79 then PacketType.TURN_CHANNEL_DATA
    else PacketType.UNKNOWN

/-- Mirrors `IceTcpDemultiplexer::ExtractResult`, with the data the C++
code communicates through side effects (the enqueued packet and the
trimmed buffer) carried explicitly. -/
inductive ExtractResult where
  | success (p : Packet) (rest : List Nat)
  | notEnough
  | failed
deriving DecidableEq, Repr

/-- Mirrors `IceTcpDemultiplexer::ExtractRfc4571Frame`: with at least
`RFC4571_HEADER_SIZE = 2` buffered bytes, read the big-endian length
`L`; fail if `L < 20` or `L > 65535`; wait if the buffer is shorter than
`2 + L`; otherwise emit a packet whose payload is the `L` bytes after the
prefix, labelled by the classifier, and trim `2 + L` bytes. -/
def extractRfc4571 (b : List Nat) : ExtractResult :=
  match b with
  | b0 :: b1 :: rest =>
    let L := b0 * 256 + b1
    if L < 20 ∨ 65535 < L then ExtractResult.failed
    else if rest.length < L then ExtractResult.notEnough
    else ExtractResult.success ⟨findPacketType (rest.take L), rest.take L⟩ (rest.drop L)
  | _ => ExtractResult.notEnough

/-- Mirrors `IceTcpDemultiplexer::ExtractStunMessage`.  The collaborator
`StunMessage::ParseHeader` is modelled from the spec (its source is not
among the three files): the fixed STUN header is 20 bytes with the
big-endian message length at offsets 2–3; it reports `NOT_ENOUGH_DATA`
while the full `20 + length` message is not yet buffered, and the spec
defines no malformed case beyond that.  On success the packet keeps its
header (`Subdata(0, 20 + length)`) and the buffer is trimmed by the same
amount. -/
def extractStun (b : List Nat) : ExtractResult :=
  if b.length < 20 then ExtractResult.notEnough
  else
    let M := b.getD 2 0 * 256 + b.getD 3 0
    if b.length < 20 + M then ExtractResult.notEnough
    else ExtractResult.success ⟨PacketType.STUN, b.take (20 + M)⟩ (b.drop (20 + M))

/-- Mirrors `IceTcpDemultiplexer::ExtractChannelMessage`.  The collaborator
`ChannelDataMessage::LoadHeader` is modelled from the spec (its source is
not among the three files): a 4-byte header carries the big-endian payload
length at offsets 2–3, and the total packet length is the header plus the
payload padded to a 4-byte boundary; `NOT_ENOUGH_DATA` while the total is
not buffered.  On success the packet keeps its header and the buffer is
trimmed by the total length. -/
def extractChannel (b : List Nat) : ExtractResult :=
  if b.length < 4 then ExtractResult.notEnough
  else
    let len := b.getD 2 0 * 256 + b.getD 3 0
    let total := 4 + len + (4 - len % 4) % 4
    if b.length < total then ExtractResult.notEnough
    else ExtractResult.success ⟨PacketType.TURN_CHANNEL_DATA, b.take total⟩ (b.drop total)

/-- One iteration of the TurnRelay branch of `ParseData`: classify the
buffer head and dispatch to the matching extractor; any other label is the
critical failure. -/
def turnStep (b : List Nat) : ExtractResult :=
  match findPacketType b with
  | PacketType.STUN => extractStun b
  | PacketType.TURN_CHANNEL_DATA => extractChannel b
  | PacketType.UNKNOWN => ExtractResult.failed

theorem extractRfc4571_success_length {b : List Nat} {p : Packet} {rest : List Nat}
    (h : extractRfc4571 b = ExtractResult.success p rest) : rest.length < b.length := by
  match b with
  | [] => simp [extractRfc4571] at h
  | [b0] => simp [extractRfc4571] at h
  | b0 :: b1 :: t =>
    simp only [extractRfc4571] at h
    split at h
    · exact absurd h (by simp)
    · split at h
      · exact absurd h (by simp)
      · rename_i h1 h2
        simp only [ExtractResult.success.injEq] at h
        obtain ⟨-, h⟩ := h
        subst rest
        simp only [List.length_drop, List.length_cons]
        omega

theorem extractStun_success_length {b : List Nat} {p : Packet} {rest : List Nat}
    (h : extractStun b = ExtractResult.success p rest) : rest.length < b.length := by
  simp only [extractStun] at h
  split at h
  · exact absurd h (by simp)
  · split at h
    · exact absurd h (by simp)
    · rename_i h1 h2
      simp only [ExtractResult.success.injEq] at h
      obtain ⟨-, h⟩ := h
      subst rest
      simp only [List.length_drop]
      omega

theorem extractChannel_success_length {b : List Nat} {p : Packet} {rest : List Nat}
    (h : extractChannel b = ExtractResult.success p rest) : rest.length < b.length := by
  simp only [extractChannel] at h
  split at h
  · exact absurd h (by simp)
  · split at h
    · exact absurd h (by simp)
    · rename_i h1 h2
      simp only [ExtractResult.success.injEq] at h
      obtain ⟨-, h⟩ := h
      subst rest
      simp only [List.length_drop]
      omega

theorem turnStep_success_length {b : List Nat} {p : Packet} {rest : List Nat}
    (h : turnStep b = ExtractResult.success p rest) : rest.length < b.length := by
  simp only [turnStep] at h
  split at h
  · exact extractStun_success_length h
  · exact extractChannel_success_length h
  · exact absurd h (by simp)

/-- The ICE-TCP Direct extraction loop of `ParseData`: while the buffer
holds at least `RFC4571_HEADER_SIZE = 2` bytes, run the RFC 4571 extractor;
packets are pushed onto the queue passed in (mirroring `_packets.push`).
Returns the final buffer, the final queue, and the boolean `ParseData`
would return. -/
def runDirect (b : List Nat) (ps : List Packet) : List Nat × List Packet × Bool :=
  if h : b.length < 2 then (b, ps, true)
  else
    match hx : extractRfc4571 b with
    | ExtractResult.success p rest => runDirect rest (ps ++ [p])
    | ExtractResult.notEnough => (b, ps, true)
    | ExtractResult.failed => (b, ps, false)
termination_by b.length
decreasing_by exact extractRfc4571_success_length hx

/-- The TurnRelay extraction loop of `ParseData`: while the buffer holds
strictly more than `MINIMUM_PACKET_HEADER_SIZE = 4` bytes, classify and
dispatch. -/
def runTurn (b : List Nat) (ps : List Packet) : List Nat × List Packet × Bool :=
  if h : 4 < b.length then
    match hx : turnStep b with
    | ExtractResult.success p rest => runTurn rest (ps ++ [p])
    | ExtractResult.notEnough => (b, ps, true)
    | ExtractResult.failed => (b, ps, false)
  else (b, ps, true)
termination_by b.length
decreasing_by exact turnStep_success_length hx

/-- The extraction loop selected by the (non-Unknown) connection type. -/
def runLoop (m : ConnectionType) (b : List Nat) (ps : List Packet) :
    List Nat × List Packet × Bool :=
  match m with
  | ConnectionType.IceTcpDirect => runDirect b ps
  | ConnectionType.TurnRelay => runTurn b ps
  | ConnectionType.Unknown => (b, ps, true)

/-- Mirrors `IceTcpDemultiplexer::DetectConnectionType`, returning the
detected type instead of mutating `_connection_type`.  With fewer than
`RFC4571_HEADER_SIZE = 2` bytes it cannot decide.  With at least 3 bytes,
first byte `0x00`, third byte `≤ 0x03` and second byte `≥ 20` it decides
IceTcpDirect; otherwise first byte `0x00`–`0x03` or `0x40`–`0x4F` decides
TurnRelay.  Note the TurnRelay checks also run when only 2 bytes are
buffered. -/
def detectConnectionType (b : List Nat) : Option ConnectionType :=
  match b with
  | b0 :: b1 :: b2 :: _ =>
    if b0 = 0 ∧ b2 ≤ 3 ∧ 20 ≤ b1 then some ConnectionType.IceTcpDirect
    else if b0 ≤ 3 then some ConnectionType.TurnRelay
    else if 64 ≤ b0 ∧ b0 ≤ 79 then some ConnectionType.TurnRelay
    else none
  | b0 :: _ :: [] =>
    if b0 ≤ 3 then some ConnectionType.TurnRelay
    else if 64 ≤ b0 ∧ b0 ≤ 79 then some ConnectionType.TurnRelay
    else none
  | _ => none

/-- Mirrors `IceTcpDemultiplexer::ParseData`: detect the connection type
when still Unknown (waiting while fewer than `RFC4571_HEADER_SIZE + 1 = 3`
bytes are buffered, falling back to IceTcpDirect with 3 or more), then run
the extraction loop for the selected framing. -/
def parseData (d : Demux) : Demux × Bool :=
  match d.mode with
  | ConnectionType.Unknown =>
    match detectConnectionType d.buffer with
    | some m =>
      let r := runLoop m d.buffer d.packets
      (⟨r.1, r.2.1, m⟩, r.2.2)
    | none =>
      if d.buffer.length < 3 then (d, true)
      else
        let r := runLoop ConnectionType.IceTcpDirect d.buffer d.packets
        (⟨r.1, r.2.1, ConnectionType.IceTcpDirect⟩, r.2.2)
  | m =>
    let r := runLoop m d.buffer d.packets
    (⟨r.1, r.2.1, m⟩, r.2.2)

/-- Mirrors `IceTcpDemultiplexer::AppendData`: append the bytes to the
buffer and run `ParseData`.  The boolean is `true` for Ok and `false` for
the critical error. -/
def appendData (d : Demux) (bytes : List Nat) : Demux × Bool :=
  parseData ⟨d.buffer ++ bytes, d.packets, d.mode⟩

/-- Mirrors `IceTcpDemultiplexer::PopPacket`: take the head of the pending
FIFO, or `none` when `IsAvailablePacket()` is false. -/
def popPacket (d : Demux) : Option Packet × Demux :=
  match d.packets with
  | [] => (none, d)
  | p :: rest => (some p, ⟨d.buffer, rest, d.mode⟩)

/-- Mirrors `IceTcpDemultiplexer::SetConnectionType`, an unconditional
write of `_connection_type`. -/
def setConnectionType (d : Demux) (m : ConnectionType) : Demux :=
  ⟨d.buffer, d.packets, m⟩

/-- Feed a list of chunks through `appendData` starting from a fresh
demultiplexer; the boolean is the conjunction of every append's result
(`true` iff no append reported the critical error). -/
def feedFrom (d : Demux) : List (List Nat) → Demux × Bool
  | [] => (d, true)
  | c :: cs =>
    let r := appendData d c
    let r' := feedFrom r.1 cs
    (r'.1, r.2 && r'.2)

def feedAll (chunks : List (List Nat)) : Demux × Bool :=
  feedFrom initDemux chunks

/-- The demultiplexer's public mutating operations other than
`SetConnectionType`: `AppendData` and `PopPacket`. -/
inductive Op where
  | append (bytes : List Nat)
  | pop
deriving DecidableEq, Repr

def applyOp (d : Demux) : Op → Demux
  | Op.append bytes => (appendData d bytes).1
  | Op.pop => (popPacket d).2

def applyOps (d : Demux) (ops : List Op) : Demux :=
  ops.foldl applyOp d

/-- Pop `n` packets in sequence, collecting the returned packets in
order. -/
def popList (d : Demux) : Nat → List Packet
  | 0 => []
  | n + 1 =>
    match popPacket d with
    | (some p, d') => p :: popList d' n
    | (none, _) => []

theorem findPacketType_append (b c : List Nat) (h : b ≠ []) :
    findPacketType (b ++ c) = findPacketType b := by
  match b with
  | [] => exact absurd rfl h
  | b0 :: t => rfl

theorem extractRfc4571_append {b : List Nat} {p : Packet} {rest : List Nat} (c : List Nat)
    (h : extractRfc4571 b = ExtractResult.success p rest) :
    extractRfc4571 (b ++ c) = ExtractResult.success p (rest ++ c) := by
  match b with
  | [] => simp [extractRfc4571] at h
  | [b0] => simp [extractRfc4571] at h
  | b0 :: b1 :: t =>
    simp only [extractRfc4571] at h ⊢
    split at h
    · exact absurd h (by simp)
    · split at h
      · exact absurd h (by simp)
      · rename_i h1 h2
        simp only [ExtractResult.success.injEq] at h
        obtain ⟨hp, hr⟩ := h
        simp only [List.cons_append]
        rw [if_neg h1, if_neg (by simp only [List.length_append]; omega)]
        rw [List.take_append_of_le_length (by omega), List.drop_append_of_le_length (by omega)]
        rw [hp, hr]

theorem extractStun_append {b : List Nat} {p : Packet} {rest : List Nat} (c : List Nat)
    (h : extractStun b = ExtractResult.success p rest) :
    extractStun (b ++ c) = ExtractResult.success p (rest ++ c) := by
  simp only [extractStun] at h ⊢
  split at h
  · exact absurd h (by simp)
  · split at h
    · exact absurd h (by simp)
    · rename_i h1 h2
      simp only [ExtractResult.success.injEq] at h
      obtain ⟨hp, hr⟩ := h
      rw [if_neg (by simp only [List.length_append]; omega)]
      rw [List.getD_append _ _ _ _ (by omega), List.getD_append _ _ _ _ (by omega)]
      rw [if_neg (by simp only [List.length_append]; omega)]
      rw [List.take_append_of_le_length (by omega), List.drop_append_of_le_length (by omega)]
      rw [hp, hr]

theorem extractChannel_append {b : List Nat} {p : Packet} {rest : List Nat} (c : List Nat)
    (h : extractChannel b = ExtractResult.success p rest) :
    extractChannel (b ++ c) = ExtractResult.success p (rest ++ c) := by
  simp only [extractChannel] at h ⊢
  split at h
  · exact absurd h (by simp)
  · split at h
    · exact absurd h (by simp)
    · rename_i h1 h2
      simp only [ExtractResult.success.injEq] at h
      obtain ⟨hp, hr⟩ := h
      rw [if_neg (by simp only [List.length_append]; omega)]
      rw [List.getD_append _ _ _ _ (by omega), List.getD_append _ _ _ _ (by omega)]
      rw [if_neg (by simp only [List.length_append]; omega)]
      rw [List.take_append_of_le_length (by omega), List.drop_append_of_le_length (by omega)]
      rw [hp, hr]

theorem extractStun_success_min {b : List Nat} {p : Packet} {rest : List Nat}
    (h : extractStun b = ExtractResult.success p rest) : 20 ≤ b.length := by
  simp only [extractStun] at h
  split at h
  · exact absurd h (by simp)
  · omega

theorem extractChannel_success_min {b : List Nat} {p : Packet} {rest : List Nat}
    (h : extractChannel b = ExtractResult.success p rest) : 4 ≤ b.length := by
  simp only [extractChannel] at h
  split at h
  · exact absurd h (by simp)
  · omega

theorem turnStep_append {b : List Nat} {p : Packet} {rest : List Nat} (c : List Nat)
    (h : turnStep b = ExtractResult.success p rest) :
    turnStep (b ++ c) = ExtractResult.success p (rest ++ c) := by
  have hne : b ≠ [] := by
    intro he
    subst he
    simp [turnStep, findPacketType] at h
  simp only [turnStep] at h ⊢
  rw [findPacketType_append b c hne]
  split at h
  · exact extractStun_append c h
  · exact extractChannel_append c h
  · exact absurd h (by simp)

theorem runDirect_eq_stop {b : List Nat} {ps : List Packet} (h : b.length < 2) :
    runDirect b ps = (b, ps, true) := by
  rw [runDirect, dif_pos h]

theorem runDirect_eq_success {b : List Nat} {ps : List Packet} {p : Packet} {rest : List Nat}
    (h : ¬ b.length < 2) (hx : extractRfc4571 b = ExtractResult.success p rest) :
    runDirect b ps = runDirect rest (ps ++ [p]) := by
  rw [runDirect, dif_neg h]
  split
  · rename_i p' rest' hx'
    rw [hx] at hx'
    cases hx'
    rfl
  · rename_i hx'
    rw [hx] at hx'
    cases hx'
  · rename_i hx'
    rw [hx] at hx'
    cases hx'

theorem runDirect_eq_notEnough {b : List Nat} {ps : List Packet}
    (h : ¬ b.length < 2) (hx : extractRfc4571 b = ExtractResult.notEnough) :
    runDirect b ps = (b, ps, true) := by
  rw [runDirect, dif_neg h]
  split <;> rename_i hx' <;> rw [hx] at hx' <;> cases hx'

theorem runDirect_eq_failed {b : List Nat} {ps : List Packet}
    (h : ¬ b.length < 2) (hx : extractRfc4571 b = ExtractResult.failed) :
    runDirect b ps = (b, ps, false) := by
  rw [runDirect, dif_neg h]
  split <;> rename_i hx' <;> rw [hx] at hx' <;> cases hx'

theorem runTurn_eq_stop {b : List Nat} {ps : List Packet} (h : ¬ 4 < b.length) :
    runTurn b ps = (b, ps, true) := by
  rw [runTurn, dif_neg h]

theorem runTurn_eq_success {b : List Nat} {ps : List Packet} {p : Packet} {rest : List Nat}
    (h : 4 < b.length) (hx : turnStep b = ExtractResult.success p rest) :
    runTurn b ps = runTurn rest (ps ++ [p]) := by
  rw [runTurn, dif_pos h]
  split
  · rename_i p' rest' hx'
    rw [hx] at hx'
    cases hx'
    rfl
  · rename_i hx'
    rw [hx] at hx'
    cases hx'
  · rename_i hx'
    rw [hx] at hx'
    cases hx'

theorem runTurn_eq_notEnough {b : List Nat} {ps : List Packet}
    (h : 4 < b.length) (hx : turnStep b = ExtractResult.notEnough) :
    runTurn b ps = (b, ps, true) := by
  rw [runTurn, dif_pos h]
  split <;> rename_i hx' <;> rw [hx] at hx' <;> cases hx'

theorem runTurn_eq_failed {b : List Nat} {ps : List Packet}
    (h : 4 < b.length) (hx : turnStep b = ExtractResult.failed) :
    runTurn b ps = (b, ps, false) := by
  rw [runTurn, dif_pos h]
  split <;> rename_i hx' <;> rw [hx] at hx' <;> cases hx'

/-- Incrementality of the IceTcpDirect loop: when a run over `b` does not
fail, running over `b ++ c` is the same as resuming from that run's
leftover buffer and queue. -/
theorem runDirect_append (b c : List Nat) (ps : List Packet)
    (h : (runDirect b ps).2.2 = true) :
    runDirect (b ++ c) ps = runDirect ((runDirect b ps).1 ++ c) (runDirect b ps).2.1 := by
  induction b, ps using runDirect.induct with
  | case1 b ps hlt =>
    rw [runDirect_eq_stop hlt]
  | case2 b ps hlt p rest hx ih =>
    rw [runDirect_eq_success hlt hx] at h ⊢
    have hstep : runDirect (b ++ c) ps = runDirect (rest ++ c) (ps ++ [p]) :=
      runDirect_eq_success (by simp only [List.length_append]; omega)
        (extractRfc4571_append c hx)
    rw [hstep]
    exact ih h
  | case3 b ps hlt hx =>
    rw [runDirect_eq_notEnough hlt hx]
  | case4 b ps hlt hx =>
    rw [runDirect_eq_failed hlt hx] at h
    simp at h

/-- Incrementality of the TurnRelay loop. -/
theorem runTurn_append (b c : List Nat) (ps : List Packet)
    (h : (runTurn b ps).2.2 = true) :
    runTurn (b ++ c) ps = runTurn ((runTurn b ps).1 ++ c) (runTurn b ps).2.1 := by
  induction b, ps using runTurn.induct with
  | case1 b ps hlt p rest hx ih =>
    rw [runTurn_eq_success hlt hx] at h ⊢
    have hstep : runTurn (b ++ c) ps = runTurn (rest ++ c) (ps ++ [p]) :=
      runTurn_eq_success (by simp only [List.length_append]; omega)
        (turnStep_append c hx)
    rw [hstep]
    exact ih h
  | case2 b ps hlt hx =>
    rw [runTurn_eq_notEnough hlt hx]
  | case3 b ps hlt hx =>
    rw [runTurn_eq_failed hlt hx] at h
    simp at h
  | case4 b ps hlt =>
    rw [runTurn_eq_stop hlt]

theorem runLoop_append (m : ConnectionType) (b c : List Nat) (ps : List Packet)
    (h : (runLoop m b ps).2.2 = true) :
    runLoop m (b ++ c) ps = runLoop m ((runLoop m b ps).1 ++ c) (runLoop m b ps).2.1 := by
  match m with
  | ConnectionType.IceTcpDirect => exact runDirect_append b c ps h
  | ConnectionType.TurnRelay => exact runTurn_append b c ps h
  | ConnectionType.Unknown => rfl

/-- The IceTcpDirect loop only pushes onto the queue it is given. -/
theorem runDirect_packets (b : List Nat) (ps : List Packet) :
    ∃ new, (runDirect b ps).2.1 = ps ++ new := by
  induction b, ps using runDirect.induct with
  | case1 b ps hlt =>
    rw [runDirect_eq_stop hlt]
    exact ⟨[], by simp⟩
  | case2 b ps hlt p rest hx ih =>
    rw [runDirect_eq_success hlt hx]
    obtain ⟨new, hn⟩ := ih
    exact ⟨p :: new, by rw [hn]; simp⟩
  | case3 b ps hlt hx =>
    rw [runDirect_eq_notEnough hlt hx]
    exact ⟨[], by simp⟩
  | case4 b ps hlt hx =>
    rw [runDirect_eq_failed hlt hx]
    exact ⟨[], by simp⟩

/-- The TurnRelay loop only pushes onto the queue it is given. -/
theorem runTurn_packets (b : List Nat) (ps : List Packet) :
    ∃ new, (runTurn b ps).2.1 = ps ++ new := by
  induction b, ps using runTurn.induct with
  | case1 b ps hlt p rest hx ih =>
    rw [runTurn_eq_success hlt hx]
    obtain ⟨new, hn⟩ := ih
    exact ⟨p :: new, by rw [hn]; simp⟩
  | case2 b ps hlt hx =>
    rw [runTurn_eq_notEnough hlt hx]
    exact ⟨[], by simp⟩
  | case3 b ps hlt hx =>
    rw [runTurn_eq_failed hlt hx]
    exact ⟨[], by simp⟩
  | case4 b ps hlt =>
    rw [runTurn_eq_stop hlt]
    exact ⟨[], by simp⟩

theorem runLoop_packets (m : ConnectionType) (b : List Nat) (ps : List Packet) :
    ∃ new, (runLoop m b ps).2.1 = ps ++ new := by
  match m with
  | ConnectionType.IceTcpDirect => exact runDirect_packets b ps
  | ConnectionType.TurnRelay => exact runTurn_packets b ps
  | ConnectionType.Unknown => exact ⟨[], by simp [runLoop]⟩

theorem detect_ne_unknown {b : List Nat} {m : ConnectionType}
    (h : detectConnectionType b = some m) : m ≠ ConnectionType.Unknown := by
  match b with
  | [] => simp [detectConnectionType] at h
  | [b0] => simp [detectConnectionType] at h
  | [b0, b1] =>
    simp only [detectConnectionType] at h
    split_ifs at h <;> simp only [Option.some.injEq] at h <;> subst h <;> simp
  | b0 :: b1 :: b2 :: t =>
    simp only [detectConnectionType] at h
    split_ifs at h <;> simp only [Option.some.injEq] at h <;> subst h <;> simp

theorem parseData_eq_mode (buf : List Nat) (ps : List Packet) (m : ConnectionType)
    (hm : m ≠ ConnectionType.Unknown) :
    parseData ⟨buf, ps, m⟩ =
      (⟨(runLoop m buf ps).1, (runLoop m buf ps).2.1, m⟩, (runLoop m buf ps).2.2) := by
  match m with
  | ConnectionType.Unknown => exact absurd rfl hm
  | ConnectionType.TurnRelay => rfl
  | ConnectionType.IceTcpDirect => rfl

theorem parseData_unknown_detect (buf : List Nat) (ps : List Packet) (m : ConnectionType)
    (hd : detectConnectionType buf = some m) :
    parseData ⟨buf, ps, ConnectionType.Unknown⟩ =
      (⟨(runLoop m buf ps).1, (runLoop m buf ps).2.1, m⟩, (runLoop m buf ps).2.2) := by
  simp only [parseData]
  rw [hd]

theorem parseData_unknown_wait (buf : List Nat) (ps : List Packet)
    (hd : detectConnectionType buf = none) (hlen : buf.length < 3) :
    parseData ⟨buf, ps, ConnectionType.Unknown⟩ = (⟨buf, ps, ConnectionType.Unknown⟩, true) := by
  simp only [parseData]
  rw [hd]
  simp [hlen]

theorem parseData_unknown_fallback (buf : List Nat) (ps : List Packet)
    (hd : detectConnectionType buf = none) (hlen : ¬ buf.length < 3) :
    parseData ⟨buf, ps, ConnectionType.Unknown⟩ =
      (⟨(runLoop ConnectionType.IceTcpDirect buf ps).1,
        (runLoop ConnectionType.IceTcpDirect buf ps).2.1, ConnectionType.IceTcpDirect⟩,
       (runLoop ConnectionType.IceTcpDirect buf ps).2.2) := by
  simp only [parseData]
  rw [hd]
  simp [hlen]

/-- The state of a demultiplexer that has consumed the total byte stream
`A` without a critical error: while the mode is Unknown nothing has been
consumed or emitted, and once the mode is decided the buffer and queue are
exactly what one run of the mode's loop over the whole stream produces. -/
def reachInv (d : Demux) (A : List Nat) : Prop :=
  (d.mode = ConnectionType.Unknown → d.packets = [] ∧ d.buffer = A) ∧
  (d.mode ≠ ConnectionType.Unknown → runLoop d.mode A [] = (d.buffer, d.packets, true))

theorem appendData_inv {d : Demux} {A : List Nat} (hI : reachInv d A) (c : List Nat)
    (hok : (appendData d c).2 = true) : reachInv (appendData d c).1 (A ++ c) := by
  obtain ⟨hU, hN⟩ := hI
  by_cases hm : d.mode = ConnectionType.Unknown
  · obtain ⟨hp, hb⟩ := hU hm
    have he : appendData d c = parseData ⟨A ++ c, ([] : List Packet), ConnectionType.Unknown⟩ := by
      show parseData ⟨d.buffer ++ c, d.packets, d.mode⟩ = _
      rw [hp, hb, hm]
    rw [he] at hok ⊢
    rcases hd : detectConnectionType (A ++ c) with _ | m
    · by_cases hlen : (A ++ c).length < 3
      · rw [parseData_unknown_wait _ _ hd hlen] at hok ⊢
        exact ⟨fun _ => ⟨rfl, rfl⟩, fun hc => absurd rfl hc⟩
      · rw [parseData_unknown_fallback _ _ hd hlen] at hok ⊢
        refine ⟨fun hc => absurd hc (by simp), fun _ => ?_⟩
        rw [← hok]
    · rw [parseData_unknown_detect _ _ m hd] at hok ⊢
      refine ⟨fun hc => absurd hc (detect_ne_unknown hd), fun _ => ?_⟩
      rw [← hok]
  · have hL := hN hm
    have he : appendData d c = parseData ⟨d.buffer ++ c, d.packets, d.mode⟩ := rfl
    rw [he] at hok ⊢
    rw [parseData_eq_mode _ _ _ hm] at hok ⊢
    refine ⟨fun hc => absurd hc hm, fun _ => ?_⟩
    have hA := runLoop_append d.mode A c [] (by rw [hL])
    rw [hL] at hA
    simp only at hA
    rw [hA, ← hok]

theorem feedFrom_inv (chunks : List (List Nat)) (d : Demux) (A : List Nat)
    (hI : reachInv d A) (hok : (feedFrom d chunks).2 = true) :
    reachInv (feedFrom d chunks).1 (A ++ chunks.flatten) := by
  induction chunks generalizing d A with
  | nil =>
    simpa [feedFrom] using hI
  | cons c cs ih =>
    simp only [feedFrom, Bool.and_eq_true] at hok
    obtain ⟨h1, h2⟩ := hok
    have hstep := appendData_inv hI c h1
    have := ih (appendData d c).1 (A ++ c) hstep h2
    simpa [feedFrom, List.append_assoc] using this

theorem feedAll_inv (chunks : List (List Nat)) (hok : (feedAll chunks).2 = true) :
    reachInv (feedAll chunks).1 chunks.flatten := by
  have hinit : reachInv initDemux [] :=
    ⟨fun _ => ⟨rfl, rfl⟩, fun hc => absurd rfl hc⟩
  simpa using feedFrom_inv chunks initDemux [] hinit hok

theorem appendData_packets (d : Demux) (c : List Nat) :
    ∃ new, (appendData d c).1.packets = d.packets ++ new := by
  by_cases hm : d.mode = ConnectionType.Unknown
  · have he : appendData d c = parseData ⟨d.buffer ++ c, d.packets, ConnectionType.Unknown⟩ := by
      show parseData ⟨d.buffer ++ c, d.packets, d.mode⟩ = _
      rw [hm]
    rw [he]
    rcases hd : detectConnectionType (d.buffer ++ c) with _ | m
    · by_cases hlen : (d.buffer ++ c).length < 3
      · rw [parseData_unknown_wait _ _ hd hlen]
        exact ⟨[], by simp⟩
      · rw [parseData_unknown_fallback _ _ hd hlen]
        exact runLoop_packets _ _ _
    · rw [parseData_unknown_detect _ _ m hd]
      exact runLoop_packets _ _ _
  · have he : appendData d c = parseData ⟨d.buffer ++ c, d.packets, d.mode⟩ := rfl
    rw [he, parseData_eq_mode _ _ _ hm]
    exact runLoop_packets _ _ _

theorem popList_take (n : Nat) (buf : List Nat) (ps : List Packet) (m : ConnectionType) :
    popList ⟨buf, ps, m⟩ n = ps.take n := by
  induction n generalizing ps with
  | zero => rfl
  | succ k ih =>
    match ps with
    | [] => rfl
    | p :: rest =>
      show p :: popList ⟨buf, rest, m⟩ k = p :: rest.take k
      rw [ih rest]

theorem appendData_mode (d : Demux) (c : List Nat) :
    (appendData d c).1.mode = d.mode ∨
      (d.mode = ConnectionType.Unknown ∧ (appendData d c).1.mode ≠ ConnectionType.Unknown) := by
  by_cases hm : d.mode = ConnectionType.Unknown
  · have he : appendData d c = parseData ⟨d.buffer ++ c, d.packets, ConnectionType.Unknown⟩ := by
      show parseData ⟨d.buffer ++ c, d.packets, d.mode⟩ = _
      rw [hm]
    rw [he]
    rcases hd : detectConnectionType (d.buffer ++ c) with _ | m
    · by_cases hlen : (d.buffer ++ c).length < 3
      · rw [parseData_unknown_wait _ _ hd hlen]
        exact Or.inl hm.symm
      · rw [parseData_unknown_fallback _ _ hd hlen]
        exact Or.inr ⟨hm, by simp⟩
    · rw [parseData_unknown_detect _ _ m hd]
      exact Or.inr ⟨hm, detect_ne_unknown hd⟩
  · have he : appendData d c = parseData ⟨d.buffer ++ c, d.packets, d.mode⟩ := rfl
    rw [he, parseData_eq_mode _ _ _ hm]
    exact Or.inl rfl

theorem popPacket_mode (d : Demux) : (popPacket d).2.mode = d.mode := by
  match d with
  | ⟨buf, [], m⟩ => rfl
  | ⟨buf, p :: rest, m⟩ => rfl

theorem applyOp_mode (d : Demux) (op : Op) :
    (applyOp d op).mode = d.mode ∨
      (d.mode = ConnectionType.Unknown ∧ (applyOp d op).mode ≠ ConnectionType.Unknown) := by
  match op with
  | Op.append bytes => exact appendData_mode d bytes
  | Op.pop => exact Or.inl (popPacket_mode d)

theorem applyOps_mode (d : Demux) (ops : List Op) (h : d.mode ≠ ConnectionType.Unknown) :
    (applyOps d ops).mode = d.mode := by
  induction ops generalizing d with
  | nil => rfl
  | cons op rest ih =>
    show (applyOps (applyOp d op) rest).mode = d.mode
    rcases applyOp_mode d op with hop | ⟨hu, _⟩
    · rw [ih (applyOp d op) (by rw [hop]; exact h), hop]
    · exact absurd hu h

/-- First-byte test used by `DetectConnectionType` in its raw STUN / TURN
Channel Data branches: `0x00`–`0x03` or `0x40`–`0x4F`. -/
def turnFirstByte (b : List Nat) : Bool :=
  match b with
  | [] => false
  | b0 :: _ => decide (b0 ≤ 3) || (decide (64 ≤ b0) && decide (b0 ≤ 79))

/-- C1 (amended): for any partition of a byte sequence `B` into chunks,
feeding the chunks one by one via `append` yields the same ordered packet
sequence as feeding `B` in one call, provided no append fails in either
run AND both runs end in the same detected connection mode.  (The extra
mode proviso is forced by `DetectConnectionType`, which can commit to
TurnRelay when an intermediate append leaves exactly 2 buffered bytes; see
the counterexample.) -/
theorem c1_chunk_invariance_same_mode (chunks : List (List Nat)) (B : List Nat)
    (hB : chunks.flatten = B)
    (h1 : (feedAll [B]).2 = true) (h2 : (feedAll chunks).2 = true)
    (hm : (feedAll chunks).1.mode = (feedAll [B]).1.mode) :
    (feedAll chunks).1.packets = (feedAll [B]).1.packets := by
  have I1 := feedAll_inv [B] h1
  have I2 := feedAll_inv chunks h2
  rw [hB] at I2
  have hflat : ([B] : List (List Nat)).flatten = B := by simp
  rw [hflat] at I1
  by_cases hu : (feedAll [B]).1.mode = ConnectionType.Unknown
  · obtain ⟨hp1, -⟩ := I1.1 hu
    obtain ⟨hp2, -⟩ := I2.1 (hm.trans hu)
    rw [hp1, hp2]
  · have hu2 : (feedAll chunks).1.mode ≠ ConnectionType.Unknown := by
      rw [hm]; exact hu
    have e1 := I1.2 hu
    have e2 := I2.2 hu2
    rw [hm, e1] at e2
    exact (congrArg (fun x => x.2.1) e2).symm

/-- C1 counterexample: the stream `00 14 || STUN(20 bytes)` fed whole is
detected as IceTcpDirect and yields one RFC 4571 payload of 20 bytes, but
fed as `[00 14]` then the rest it is detected as TurnRelay (2 buffered
bytes, first byte 0x00) and yields one 21-byte raw STUN packet; no append
fails in either run, yet the packet sequences differ. -/
theorem c1_chunk_invariance_cex :
    (feedAll [[0, 20] ++ ([0, 1] ++ List.replicate 18 0)]).2 = true ∧
    (feedAll [[0, 20], [0, 1] ++ List.replicate 18 0]).2 = true ∧
    (feedAll [[0, 20], [0, 1] ++ List.replicate 18 0]).1.packets ≠
      (feedAll [[0, 20] ++ ([0, 1] ++ List.replicate 18 0)]).1.packets := by
  refine ⟨?_, ?_, ?_⟩ <;>
    simp [feedAll, feedFrom, appendData, parseData, detectConnectionType, runLoop, runTurn,
      runDirect, turnStep, findPacketType, extractStun, extractChannel, extractRfc4571,
      initDemux, List.replicate]

/-- C1 witness: the same stream split after the first four bytes keeps the
IceTcpDirect detection in both runs, and the packet sequences coincide. -/
theorem c1_chunk_invariance_witness :
    ([[0, 20, 0, 1], List.replicate 18 0] : List (List Nat)).flatten =
        [0, 20, 0, 1] ++ List.replicate 18 0 ∧
    (feedAll [[0, 20, 0, 1] ++ List.replicate 18 0]).2 = true ∧
    (feedAll [[0, 20, 0, 1], List.replicate 18 0]).2 = true ∧
    (feedAll [[0, 20, 0, 1], List.replicate 18 0]).1.mode =
      (feedAll [[0, 20, 0, 1] ++ List.replicate 18 0]).1.mode ∧
    (feedAll [[0, 20, 0, 1], List.replicate 18 0]).1.packets =
      (feedAll [[0, 20, 0, 1] ++ List.replicate 18 0]).1.packets := by
  refine ⟨by simp, ?h1, ?h2, ?hm, ?_⟩
  case h1 =>
    simp [feedAll, feedFrom, appendData, parseData, detectConnectionType, runLoop, runDirect,
      extractRfc4571, findPacketType, initDemux, List.replicate]
  case h2 =>
    simp [feedAll, feedFrom, appendData, parseData, detectConnectionType, runLoop, runDirect,
      extractRfc4571, findPacketType, initDemux, List.replicate]
  case hm =>
    simp [feedAll, feedFrom, appendData, parseData, detectConnectionType, runLoop, runDirect,
      extractRfc4571, findPacketType, initDemux, List.replicate]
  exact c1_chunk_invariance_same_mode _ _ (by simp)
    (by simp [feedAll, feedFrom, appendData, parseData, detectConnectionType, runLoop, runDirect,
      extractRfc4571, findPacketType, initDemux, List.replicate])
    (by simp [feedAll, feedFrom, appendData, parseData, detectConnectionType, runLoop, runDirect,
      extractRfc4571, findPacketType, initDemux, List.replicate])
    (by simp [feedAll, feedFrom, appendData, parseData, detectConnectionType, runLoop, runDirect,
      extractRfc4571, findPacketType, initDemux, List.replicate])

/-- C2 (amended): from mode Unknown, an append that leaves at most 1
buffered byte (or exactly 2 whose first byte is outside
`[0x00,0x03] ∪ [0x40,0x4F]`) keeps the mode Unknown and returns Ok; an
append that leaves exactly 2 buffered bytes whose first byte is inside
those ranges already decides TurnRelay; an append reaching 3 or more bytes
always decides a non-Unknown mode (detection or the IceTcpDirect
fallback).  The original claim — that the mode is decided only once at
least 3 bytes are buffered — fails on the 2-byte TurnRelay case. -/
theorem c2_mode_detection_threshold (d : Demux) (bytes : List Nat)
    (h : d.mode = ConnectionType.Unknown) :
    ((d.buffer ++ bytes).length ≤ 1 →
      (appendData d bytes).1.mode = ConnectionType.Unknown ∧ (appendData d bytes).2 = true) ∧
    ((d.buffer ++ bytes).length = 2 →
      (turnFirstByte (d.buffer ++ bytes) = true →
        (appendData d bytes).1.mode = ConnectionType.TurnRelay ∧
          (appendData d bytes).2 = true) ∧
      (turnFirstByte (d.buffer ++ bytes) = false →
        (appendData d bytes).1.mode = ConnectionType.Unknown ∧
          (appendData d bytes).2 = true)) ∧
    (3 ≤ (d.buffer ++ bytes).length → (appendData d bytes).1.mode ≠ ConnectionType.Unknown) := by
  have he : appendData d bytes = parseData ⟨d.buffer ++ bytes, d.packets, ConnectionType.Unknown⟩ := by
    show parseData ⟨d.buffer ++ bytes, d.packets, d.mode⟩ = _
    rw [h]
  rw [he]
  generalize d.buffer ++ bytes = b
  match b with
  | [] =>
    refine ⟨fun _ => ?_, fun hl => by simp at hl, fun hl => by simp at hl⟩
    rw [parseData_unknown_wait _ _ (by simp [detectConnectionType]) (by simp)]
    exact ⟨rfl, rfl⟩
  | [b0] =>
    refine ⟨fun _ => ?_, fun hl => by simp at hl, fun hl => by simp at hl⟩
    rw [parseData_unknown_wait _ _ (by simp [detectConnectionType]) (by simp)]
    exact ⟨rfl, rfl⟩
  | [b0, b1] =>
    refine ⟨fun hl => by simp at hl, fun _ => ⟨?_, ?_⟩, fun hl => by simp at hl⟩
    · intro htb
      simp only [turnFirstByte, Bool.or_eq_true, Bool.and_eq_true, decide_eq_true_eq] at htb
      have hd : detectConnectionType [b0, b1] = some ConnectionType.TurnRelay := by
        simp only [detectConnectionType]
        rcases htb with h3 | ⟨h64, h79⟩
        · rw [if_pos h3]
        · rw [if_neg (by omega), if_pos ⟨h64, h79⟩]
      rw [parseData_unknown_detect _ _ _ hd]
      refine ⟨rfl, ?_⟩
      show (runTurn [b0, b1] d.packets).2.2 = true
      rw [runTurn_eq_stop (by simp)]
    · intro htb
      simp only [turnFirstByte, Bool.or_eq_false_iff, Bool.and_eq_false_iff,
        decide_eq_false_iff_not] at htb
      have hd : detectConnectionType [b0, b1] = none := by
        simp only [detectConnectionType]
        rw [if_neg htb.1, if_neg (by rcases htb.2 with hc | hc <;> omega)]
      rw [parseData_unknown_wait _ _ hd (by simp)]
      exact ⟨rfl, rfl⟩
  | b0 :: b1 :: b2 :: t =>
    refine ⟨fun hl => by simp at hl, fun hl => by simp at hl, fun _ => ?_⟩
    rcases hd : detectConnectionType (b0 :: b1 :: b2 :: t) with _ | m
    · rw [parseData_unknown_fallback _ _ hd (by simp)]
      simp
    · rw [parseData_unknown_detect _ _ _ hd]
      exact detect_ne_unknown hd

/-- C2 witness: a fresh demultiplexer, fed two bytes `00 00` (first byte
in the raw-STUN range), is decided TurnRelay by that very append, and the
append returns Ok. -/
theorem c2_mode_detection_threshold_witness :
    initDemux.mode = ConnectionType.Unknown ∧
    (initDemux.buffer ++ [0, 0]).length = 2 ∧
    turnFirstByte (initDemux.buffer ++ [0, 0]) = true ∧
    (appendData initDemux [0, 0]).1.mode = ConnectionType.TurnRelay ∧
    (appendData initDemux [0, 0]).2 = true := by
  have hthm := ((c2_mode_detection_threshold initDemux [0, 0] rfl).2.1 rfl).1 rfl
  exact ⟨rfl, rfl, rfl, hthm.1, hthm.2⟩

/-- C2 counterexample: the first append of `00 00` leaves the buffer with
2 bytes (fewer than 3), yet the mode is no longer Unknown — detection does
not wait for three bytes in the raw-STUN / Channel-Data first-byte
ranges. -/
theorem c2_mode_detection_threshold_cex :
    (appendData initDemux [0, 0]).2 = true ∧
    (appendData initDemux [0, 0]).1.buffer.length < 3 ∧
    (appendData initDemux [0, 0]).1.mode ≠ ConnectionType.Unknown := by
  refine ⟨?_, ?_, ?_⟩ <;>
    simp [appendData, parseData, detectConnectionType, runLoop, runTurn, initDemux]

/-- C3 (amended): under the operations `AppendData` and `PopPacket`, a
non-Unknown connection mode never changes, and the only transitions any
such operation can make are Unknown → IceTcpDirect and Unknown →
TurnRelay.  The original claim quantified over every operation; it fails
for `SetConnectionType`, which writes its argument unconditionally (see
the counterexample). -/
theorem c3_mode_monotonic (d : Demux) (ops : List Op) (h : d.mode ≠ ConnectionType.Unknown) :
    (applyOps d ops).mode = d.mode ∧
    ∀ (e : Demux) (op : Op),
      (applyOp e op).mode = e.mode ∨
        (e.mode = ConnectionType.Unknown ∧ (applyOp e op).mode ≠ ConnectionType.Unknown) :=
  ⟨applyOps_mode d ops h, applyOp_mode⟩

/-- C3 witness: a demultiplexer in TurnRelay mode keeps that mode across
an append followed by a pop. -/
theorem c3_mode_monotonic_witness :
    (⟨[], [], ConnectionType.TurnRelay⟩ : Demux).mode ≠ ConnectionType.Unknown ∧
    (applyOps ⟨[], [], ConnectionType.TurnRelay⟩ [Op.append [0, 1], Op.pop]).mode =
      ConnectionType.TurnRelay :=
  ⟨by simp, (c3_mode_monotonic ⟨[], [], ConnectionType.TurnRelay⟩
      [Op.append [0, 1], Op.pop] (by simp)).1⟩

/-- C3 counterexample: after the mode is observed as TurnRelay,
`SetConnectionType(Unknown)` changes the observed mode — monotonicity does
not survive the `SetConnectionType` operation. -/
theorem c3_mode_monotonic_cex :
    (appendData initDemux [0, 0]).1.mode = ConnectionType.TurnRelay ∧
    (setConnectionType (appendData initDemux [0, 0]).1 ConnectionType.Unknown).mode ≠
      (appendData initDemux [0, 0]).1.mode := by
  have hmode : (appendData initDemux [0, 0]).1.mode = ConnectionType.TurnRelay := by
    simp [appendData, parseData, detectConnectionType, runLoop, runTurn, initDemux]
  refine ⟨hmode, ?_⟩
  rw [hmode]
  simp [setConnectionType]

/-- C4: in IceTcpDirect mode, when the buffer holds at least `2 + L` bytes
for the big-endian length `L` of its first two bytes and `20 ≤ L`, the
RFC 4571 extractor emits one packet whose payload is exactly
`buffer[2 .. 2+L]` (length prefix stripped), labelled by the packet-type
classifier applied to that payload, and trims exactly the first `2 + L`
bytes. -/
theorem c4_rfc4571_extraction (b0 b1 : Nat) (t : List Nat) (h0 : b0 < 256) (h1 : b1 < 256)
    (hL : 20 ≤ b0 * 256 + b1) (hlen : b0 * 256 + b1 ≤ t.length) :
    extractRfc4571 (b0 :: b1 :: t) =
      ExtractResult.success
        ⟨findPacketType (t.take (b0 * 256 + b1)), t.take (b0 * 256 + b1)⟩
        (t.drop (b0 * 256 + b1)) := by
  simp only [extractRfc4571]
  rw [if_neg (by omega), if_neg (by omega)]

/-- C4 witness: the frame `00 14 || STUN(20 bytes)` yields one STUN packet
with the 20-byte payload and an empty leftover. -/
theorem c4_rfc4571_extraction_witness :
    (0 < 256 ∧ 20 < 256 ∧ 20 ≤ 0 * 256 + 20 ∧
      0 * 256 + 20 ≤ ([0, 1] ++ List.replicate 18 0 : List Nat).length) ∧
    extractRfc4571 (0 :: 20 :: ([0, 1] ++ List.replicate 18 0)) =
      ExtractResult.success ⟨PacketType.STUN, [0, 1] ++ List.replicate 18 0⟩ [] := by
  refine ⟨by refine ⟨by decide, by decide, by decide, by decide⟩, ?_⟩
  have h := c4_rfc4571_extraction 0 20 ([0, 1] ++ List.replicate 18 0)
    (by decide) (by decide) (by decide) (by decide)
  exact h.trans (by decide)

/-- C5: in IceTcpDirect mode, a buffer of at least 2 bytes whose length
prefix `L` satisfies `L < 20` or `L > 65535` makes the extractor fail and
the enclosing append report the critical error; conversely, a valid `L`
with a buffer shorter than `2 + L` makes the append return Ok with the
buffer retained unchanged and no packet enqueued. -/
theorem c5_invalid_length_fatal (d : Demux) (bytes : List Nat) (b0 b1 : Nat) (t : List Nat)
    (hm : d.mode = ConnectionType.IceTcpDirect)
    (hb : d.buffer ++ bytes = b0 :: b1 :: t) :
    ((b0 * 256 + b1 < 20 ∨ 65535 < b0 * 256 + b1) →
      extractRfc4571 (b0 :: b1 :: t) = ExtractResult.failed ∧
        (appendData d bytes).2 = false) ∧
    (20 ≤ b0 * 256 + b1 → b0 * 256 + b1 ≤ 65535 → t.length < b0 * 256 + b1 →
      appendData d bytes =
        (⟨b0 :: b1 :: t, d.packets, ConnectionType.IceTcpDirect⟩, true)) := by
  have he : appendData d bytes =
      parseData ⟨b0 :: b1 :: t, d.packets, ConnectionType.IceTcpDirect⟩ := by
    show parseData ⟨d.buffer ++ bytes, d.packets, d.mode⟩ = _
    rw [hb, hm]
  constructor
  · intro hbad
    have hx : extractRfc4571 (b0 :: b1 :: t) = ExtractResult.failed := by
      simp only [extractRfc4571]
      rw [if_pos hbad]
    refine ⟨hx, ?_⟩
    rw [he, parseData_eq_mode _ _ _ (by simp)]
    show (runDirect (b0 :: b1 :: t) d.packets).2.2 = false
    rw [runDirect_eq_failed (by simp) hx]
  · intro h20 h65 hlen
    have hx : extractRfc4571 (b0 :: b1 :: t) = ExtractResult.notEnough := by
      simp only [extractRfc4571]
      rw [if_neg (by omega), if_pos hlen]
    rw [he, parseData_eq_mode _ _ _ (by simp)]
    have hstop : runLoop ConnectionType.IceTcpDirect (b0 :: b1 :: t) d.packets =
        (b0 :: b1 :: t, d.packets, true) := by
      show runDirect (b0 :: b1 :: t) d.packets = _
      exact runDirect_eq_notEnough (by simp) hx
    rw [hstop]

/-- C5 witness: prefix `00 0A` (length 10 < 20) is fatal, and prefix
`00 64` (length 100) over a 1-byte remainder is retained waiting. -/
theorem c5_invalid_length_fatal_witness :
    ((⟨[], [], ConnectionType.IceTcpDirect⟩ : Demux).mode = ConnectionType.IceTcpDirect ∧
      (⟨[], [], ConnectionType.IceTcpDirect⟩ : Demux).buffer ++ [0, 10, 0] = 0 :: 10 :: [0] ∧
      (0 * 256 + 10 < 20 ∨ 65535 < 0 * 256 + 10)) ∧
    extractRfc4571 (0 :: 10 :: [0]) = ExtractResult.failed ∧
    (appendData ⟨[], [], ConnectionType.IceTcpDirect⟩ [0, 10, 0]).2 = false := by
  have h := (c5_invalid_length_fatal ⟨[], [], ConnectionType.IceTcpDirect⟩ [0, 10, 0]
    0 10 [0] rfl rfl).1 (Or.inl (by decide))
  exact ⟨⟨rfl, rfl, Or.inl (by decide)⟩, h.1, h.2⟩

/-- C6 (amended): in TurnRelay mode, whenever the buffer holds strictly
more than `MINIMUM_PACKET_HEADER_SIZE = 4` bytes and the packet-type
classifier labels its head neither STUN nor TURN Channel Data, the append
reports the critical error without enqueuing any packet.  The original
claim omitted the `> 4` condition: with 4 or fewer buffered bytes the
extraction loop never runs and the append returns Ok (see the
counterexample). -/
theorem c6_turn_rejects_unknown (d : Demux) (bytes : List Nat)
    (hm : d.mode = ConnectionType.TurnRelay)
    (hlen : 4 < (d.buffer ++ bytes).length)
    (hft : findPacketType (d.buffer ++ bytes) = PacketType.UNKNOWN) :
    appendData d bytes = (⟨d.buffer ++ bytes, d.packets, ConnectionType.TurnRelay⟩, false) := by
  have he : appendData d bytes =
      parseData ⟨d.buffer ++ bytes, d.packets, ConnectionType.TurnRelay⟩ := by
    show parseData ⟨d.buffer ++ bytes, d.packets, d.mode⟩ = _
    rw [hm]
  rw [he, parseData_eq_mode _ _ _ (by simp)]
  have hstep : turnStep (d.buffer ++ bytes) = ExtractResult.failed := by
    simp only [turnStep, hft]
  have hrun : runLoop ConnectionType.TurnRelay (d.buffer ++ bytes) d.packets =
      (d.buffer ++ bytes, d.packets, false) := by
    show runTurn (d.buffer ++ bytes) d.packets = _
    exact runTurn_eq_failed hlen hstep
  rw [hrun]

/-- C6 witness: five bytes headed by `0x10` (classified UNKNOWN) in
TurnRelay mode make the append fail with the queue untouched. -/
theorem c6_turn_rejects_unknown_witness :
    ((⟨[], [], ConnectionType.TurnRelay⟩ : Demux).mode = ConnectionType.TurnRelay ∧
      4 < ((⟨[], [], ConnectionType.TurnRelay⟩ : Demux).buffer ++ [16, 0, 0, 0, 0]).length ∧
      findPacketType ((⟨[], [], ConnectionType.TurnRelay⟩ : Demux).buffer ++ [16, 0, 0, 0, 0]) =
        PacketType.UNKNOWN) ∧
    appendData ⟨[], [], ConnectionType.TurnRelay⟩ [16, 0, 0, 0, 0] =
      (⟨[16, 0, 0, 0, 0], [], ConnectionType.TurnRelay⟩, false) := by
  refine ⟨⟨rfl, by decide, rfl⟩, ?_⟩
  exact c6_turn_rejects_unknown ⟨[], [], ConnectionType.TurnRelay⟩ [16, 0, 0, 0, 0]
    rfl (by decide) rfl

/-- C6 counterexample: with a single buffered byte `0x10` the classifier
labels the head UNKNOWN, yet the append returns Ok (the TurnRelay loop
requires strictly more than 4 buffered bytes before it inspects the
head). -/
theorem c6_turn_rejects_unknown_cex :
    findPacketType [16] = PacketType.UNKNOWN ∧
    (appendData ⟨[], [], ConnectionType.TurnRelay⟩ [16]).2 = true ∧
    (appendData ⟨[], [], ConnectionType.TurnRelay⟩ [16]).1.packets = [] := by
  refine ⟨rfl, ?_, ?_⟩ <;> simp [appendData, parseData, runLoop, runTurn]

/-- C10: when an append reports the critical error, every packet already
in the pending FIFO (from this or any earlier append) is preserved in
stream order — the new queue is the old queue plus newly completed
packets, and popping the old queue's length returns exactly the old
queue. -/
theorem c10_failed_append_preserves_queue (d : Demux) (bytes : List Nat)
    (hfail : (appendData d bytes).2 = false) :
    ∃ new, (appendData d bytes).1.packets = d.packets ++ new ∧
      popList (appendData d bytes).1 d.packets.length = d.packets := by
  obtain ⟨new, hn⟩ := appendData_packets d bytes
  refine ⟨new, hn, ?_⟩
  have hp : popList (appendData d bytes).1 d.packets.length =
      ((appendData d bytes).1.packets).take d.packets.length :=
    popList_take d.packets.length (appendData d bytes).1.buffer
      (appendData d bytes).1.packets (appendData d bytes).1.mode
  rw [hp, hn, List.take_left]

/-- C10 witness: a queue holding one STUN packet survives a failing append
(UNKNOWN head in TurnRelay mode) and is still returned by pop. -/
theorem c10_failed_append_preserves_queue_witness :
    (appendData ⟨[], [⟨PacketType.STUN, [1]⟩], ConnectionType.TurnRelay⟩
        [16, 0, 0, 0, 0]).2 = false ∧
    ∃ new, (appendData ⟨[], [⟨PacketType.STUN, [1]⟩], ConnectionType.TurnRelay⟩
        [16, 0, 0, 0, 0]).1.packets = [⟨PacketType.STUN, [1]⟩] ++ new ∧
      popList (appendData ⟨[], [⟨PacketType.STUN, [1]⟩], ConnectionType.TurnRelay⟩
        [16, 0, 0, 0, 0]).1 1 = [⟨PacketType.STUN, [1]⟩] := by
  have hfail : (appendData ⟨[], [⟨PacketType.STUN, [1]⟩], ConnectionType.TurnRelay⟩
      [16, 0, 0, 0, 0]).2 = false := by
    simp [appendData, parseData, runLoop, runTurn, turnStep, findPacketType]
  exact ⟨hfail, c10_failed_append_preserves_queue _ _ hfail⟩

end IceTcp

namespace IceCand

/-! ## IceCandidate (`ice_candidate.h`)

Only the header of `IceCandidate` is among the source files; the method
bodies (`ParseFromString`, `GetCandidateString`, `CalculatePriority`,
`AddExtensionAttributes`) are modelled from the spec, except where the
header itself decides the question (notably the container type
`std::map<ov::String, ov::String>` of `_extension_attributes`).
`ov::String` values are modelled as `List Char`. -/

/-- A token or string contains no ASCII SP. -/
def noSp (t : List Char) : Prop := ∀ ch ∈ t, ch ≠ ' '

/-- Upper-casing of one ASCII character (`a`–`z` mapped to `A`–`Z`). -/
def upperCh (c : Char) : Char :=
  if 97 ≤ c.toNat ∧ c.toNat ≤ 122 then Char.ofNat (c.toNat - 32) else c

/-- Upper-casing of a string, as performed on the transport token on
emission. -/
def upperChars (t : List Char) : List Char := t.map upperCh

/-- ASCII decimal digit test. -/
def isDigitCh (c : Char) : Bool := decide (48 ≤ c.toNat) && decide (c.toNat ≤ 57)

def digitToNat (c : Char) : Nat := c.toNat - 48

/-- The value of a decimal digit string (as `strtoul` would read it). -/
def charsNat (l : List Char) : Nat := l.foldl (fun a c => a * 10 + digitToNat c) 0

/-- The decimal digit character for `d < 10`. -/
def digitCh (d : Nat) : Char :=
  match d with
  | 0 => '0' | 1 => '1' | 2 => '2' | 3 => '3' | 4 => '4'
  | 5 => '5' | 6 => '6' | 7 => '7' | 8 => '8' | _ => '9'

/-- Decimal digits of `n`, most significant first; the first argument is
recursion fuel (any fuel `≥ n` is exact). -/
def natToCharsAux : Nat → Nat → List Char
  | _, 0 => []
  | 0, _ + 1 => []
  | fuel + 1, n + 1 => natToCharsAux fuel ((n + 1) / 10) ++ [digitCh ((n + 1) % 10)]

/-- Decimal rendering of a natural number (as `printf("%u")` would). -/
def natToChars (n : Nat) : List Char :=
  if n = 0 then ['0'] else natToCharsAux n n

theorem digitCh_val : ∀ d, d < 10 → digitToNat (digitCh d) = d := by decide

theorem digitCh_digit : ∀ d, d < 10 → isDigitCh (digitCh d) = true := by decide

theorem digitCh_noSp : ∀ d, d < 10 → digitCh d ≠ ' ' := by decide

theorem charsNat_foldl (l : List Char) :
    ∀ a : Nat, l.foldl (fun a c => a * 10 + digitToNat c) a =
      a * 10 ^ l.length + charsNat l := by
  induction l with
  | nil => intro a; simp [charsNat]
  | cons d t ih =>
    intro a
    have h1 : (d :: t).foldl (fun a c => a * 10 + digitToNat c) a =
        t.foldl (fun a c => a * 10 + digitToNat c) (a * 10 + digitToNat d) := rfl
    have h0 : charsNat (d :: t) = digitToNat d * 10 ^ t.length + charsNat t := by
      have h2 : charsNat (d :: t) =
          t.foldl (fun a c => a * 10 + digitToNat c) (0 * 10 + digitToNat d) := rfl
      rw [h2, ih (0 * 10 + digitToNat d)]
      ring_nf
    rw [h1, ih (a * 10 + digitToNat d), h0]
    simp only [List.length_cons]
    ring

theorem charsNat_append (a b : List Char) :
    charsNat (a ++ b) = charsNat a * 10 ^ b.length + charsNat b := by
  have h1 : charsNat (a ++ b) =
      b.foldl (fun a c => a * 10 + digitToNat c)
        (a.foldl (fun a c => a * 10 + digitToNat c) 0) := by
    show (a ++ b).foldl _ 0 = _
    rw [List.foldl_append]
  rw [h1]
  exact charsNat_foldl b (charsNat a)

theorem natToCharsAux_spec : ∀ (fuel n : Nat), n ≤ fuel →
    charsNat (natToCharsAux fuel n) = n ∧
    (∀ ch ∈ natToCharsAux fuel n, isDigitCh ch = true ∧ ch ≠ ' ') ∧
    (n ≠ 0 → natToCharsAux fuel n ≠ []) := by
  intro fuel
  induction fuel with
  | zero =>
    intro n hn
    interval_cases n
    exact ⟨rfl, by simp [natToCharsAux], by simp⟩
  | succ f ih =>
    intro n hn
    match n with
    | 0 => exact ⟨rfl, by simp [natToCharsAux], by simp⟩
    | m + 1 =>
      have hdiv : (m + 1) / 10 ≤ f := by omega
      obtain ⟨hval, hdig, -⟩ := ih ((m + 1) / 10) hdiv
      have hmod : (m + 1) % 10 < 10 := by omega
      refine ⟨?_, ?_, ?_⟩
      · show charsNat (natToCharsAux f ((m + 1) / 10) ++ [digitCh ((m + 1) % 10)]) = m + 1
        rw [charsNat_append, hval]
        have : charsNat [digitCh ((m + 1) % 10)] = (m + 1) % 10 := by
          show 0 * 10 + digitToNat (digitCh ((m + 1) % 10)) = _
          rw [digitCh_val _ hmod]
          omega
        rw [this]
        simp only [List.length_singleton, pow_one]
        omega
      · intro ch hch
        rw [show natToCharsAux (f + 1) (m + 1) =
            natToCharsAux f ((m + 1) / 10) ++ [digitCh ((m + 1) % 10)] from rfl] at hch
        rcases List.mem_append.mp hch with hl | hr
        · exact hdig ch hl
        · simp only [List.mem_singleton] at hr
          subst hr
          exact ⟨digitCh_digit _ hmod, digitCh_noSp _ hmod⟩
      · intro _
        show natToCharsAux f ((m + 1) / 10) ++ [digitCh ((m + 1) % 10)] ≠ []
        simp

theorem charsNat_natToChars (n : Nat) : charsNat (natToChars n) = n := by
  by_cases h : n = 0
  · subst h; rfl
  · show charsNat (if n = 0 then ['0'] else natToCharsAux n n) = n
    rw [if_neg h]
    exact (natToCharsAux_spec n n (le_refl n)).1

theorem natToChars_ne_nil (n : Nat) : natToChars n ≠ [] := by
  by_cases h : n = 0
  · subst h; simp [natToChars]
  · show (if n = 0 then ['0'] else natToCharsAux n n) ≠ []
    rw [if_neg h]
    exact (natToCharsAux_spec n n (le_refl n)).2.2 h

theorem natToChars_digits (n : Nat) :
    ∀ ch ∈ natToChars n, isDigitCh ch = true ∧ ch ≠ ' ' := by
  by_cases h : n = 0
  · subst h
    intro ch hch
    have h0 : natToChars 0 = ['0'] := rfl
    rw [h0, List.mem_singleton] at hch
    subst hch
    exact ⟨by decide, by decide⟩
  · intro ch hch
    rw [show natToChars n = natToCharsAux n n by simp [natToChars, h]] at hch
    exact (natToCharsAux_spec n n (le_refl n)).2.1 ch hch

/-- Split a string at every ASCII SP (the SDP token separator); adjacent
separators yield empty tokens, matching a split on single characters. -/
def splitSp : List Char → List (List Char)
  | [] => [[]]
  | c :: rest =>
    match splitSp rest with
    | t :: ts => if c = ' ' then [] :: t :: ts else (c :: t) :: ts
    | [] => [[]]

/-- Join tokens with single ASCII SP separators. -/
def joinSp : List (List Char) → List Char
  | [] => []
  | [t] => t
  | t :: ts => t ++ ' ' :: joinSp ts

theorem splitSp_ne_nil : ∀ l : List Char, splitSp l ≠ []
  | [] => by simp [splitSp]
  | c :: rest => by
    simp only [splitSp]
    cases hh : splitSp rest with
    | nil => exact absurd hh (splitSp_ne_nil rest)
    | cons t ts => by_cases hc : c = ' ' <;> simp [hc]

theorem splitSp_space (l : List Char) : splitSp (' ' :: l) = [] :: splitSp l := by
  match h : splitSp l with
  | t :: ts => simp [splitSp, h]
  | [] => exact absurd h (splitSp_ne_nil l)

theorem splitSp_tok (t : List Char) (ht : noSp t) (l : List Char) :
    splitSp (t ++ l) = (t ++ (splitSp l).headI) :: (splitSp l).tail := by
  induction t with
  | nil =>
    match h : splitSp l with
    | u :: us => simp [h]
    | [] => exact absurd h (splitSp_ne_nil l)
  | cons c cs ih =>
    have hc : c ≠ ' ' := ht c (List.mem_cons_self c cs)
    have hcs : noSp cs := fun ch hch => ht ch (List.mem_cons_of_mem c hch)
    show splitSp (c :: (cs ++ l)) = _
    simp only [splitSp]
    rw [ih hcs]
    simp [hc]

theorem splitSp_joinSp : ∀ (ts : List (List Char)) (t : List Char),
    noSp t → (∀ tok ∈ ts, noSp tok) →
    splitSp (joinSp (t :: ts)) = t :: ts := by
  intro ts
  induction ts with
  | nil =>
    intro t ht _
    have h2 := splitSp_tok t ht []
    simp only [List.append_nil] at h2
    show splitSp t = [t]
    rw [h2]
    simp [splitSp]
  | cons u us ih =>
    intro t ht hts
    show splitSp (t ++ ' ' :: joinSp (u :: us)) = t :: u :: us
    rw [splitSp_tok t ht]
    rw [splitSp_space]
    rw [ih u (hts u (List.mem_cons_self u us))
      (fun tok htok => hts tok (List.mem_cons_of_mem u htok))]
    simp

theorem splitSp_mem_noSp : ∀ (l : List Char) (t : List Char), t ∈ splitSp l → noSp t := by
  intro l
  induction l with
  | nil =>
    intro t ht
    simp only [splitSp, List.mem_singleton] at ht
    subst ht
    intro ch hch
    cases hch
  | cons c rest ih =>
    intro t ht
    match h : splitSp rest with
    | u :: us =>
      simp only [splitSp, h] at ht
      split at ht
      · rename_i hc
        subst hc
        rcases List.mem_cons.mp ht with he | hm
        · subst he; intro ch hch; cases hch
        · exact ih t (h ▸ hm)
      · rename_i hc
        rcases List.mem_cons.mp ht with he | hm
        · subst he
          intro ch hch
          rcases List.mem_cons.mp hch with he2 | hm2
          · subst he2; exact hc
          · exact ih u (h ▸ List.mem_cons_self u us) ch hm2
        · exact ih t (h ▸ List.mem_cons_of_mem u hm)
    | [] => exact absurd h (splitSp_ne_nil rest)

/-- Lexicographic (byte-wise) strict order on strings, the key order of
`std::map<ov::String, ov::String>`. -/
def ltChars : List Char → List Char → Bool
  | [], [] => false
  | [], _ :: _ => true
  | _ :: _, [] => false
  | a :: as, b :: bs => if a < b then true else if b < a then false else ltChars as bs

theorem ltChars_irrefl : ∀ a : List Char, ltChars a a = false
  | [] => rfl
  | c :: as => by
    simp only [ltChars, lt_irrefl, if_false, if_neg]
    exact ltChars_irrefl as

theorem ltChars_asymm : ∀ {a b : List Char}, ltChars a b = true → ltChars b a = false
  | [], [], h => by simp [ltChars] at h
  | [], _ :: _, _ => rfl
  | _ :: _, [], h => by simp [ltChars] at h
  | x :: as, y :: bs, h => by
    simp only [ltChars] at h ⊢
    rcases lt_trichotomy x y with hxy | hxy | hxy
    · rw [if_neg (lt_asymm hxy), if_pos hxy]
    · subst hxy
      rw [if_neg (lt_irrefl x), if_neg (lt_irrefl x)] at h ⊢
      exact ltChars_asymm h
    · rw [if_neg (lt_asymm hxy), if_pos hxy] at h
      cases h

theorem ltChars_eq_of_not : ∀ {a b : List Char},
    ltChars a b = false → ltChars b a = false → a = b
  | [], [], _, _ => rfl
  | [], _ :: _, h, _ => by simp [ltChars] at h
  | _ :: _, [], _, h => by simp [ltChars] at h
  | x :: as, y :: bs, h1, h2 => by
    simp only [ltChars] at h1 h2
    rcases lt_trichotomy x y with hxy | hxy | hxy
    · rw [if_pos hxy] at h1; cases h1
    · subst hxy
      rw [if_neg (lt_irrefl x), if_neg (lt_irrefl x)] at h1 h2
      rw [ltChars_eq_of_not h1 h2]
    · rw [if_pos hxy] at h2; cases h2

theorem ltChars_trans : ∀ {a b c : List Char},
    ltChars a b = true → ltChars b c = true → ltChars a c = true
  | [], _, _ :: _, _, _ => rfl
  | [], b, [], _, h2 => by cases b <;> simp [ltChars] at h2
  | _ :: _, [], _, h1, _ => by simp [ltChars] at h1
  | _ :: _, _ :: _, [], _, h2 => by simp [ltChars] at h2
  | x :: as, y :: bs, z :: cs, h1, h2 => by
    simp only [ltChars] at h1 h2 ⊢
    rcases lt_trichotomy x y with hxy | hxy | hxy
    · rcases lt_trichotomy y z with hyz | hyz | hyz
      · rw [if_pos (lt_trans hxy hyz)]
      · subst hyz; rw [if_pos hxy]
      · rw [if_neg (lt_asymm hyz), if_pos hyz] at h2; cases h2
    · subst hxy
      rw [if_neg (lt_irrefl x), if_neg (lt_irrefl x)] at h1
      rcases lt_trichotomy x z with hyz | hyz | hyz
      · rw [if_pos hyz]
      · subst hyz
        rw [if_neg (lt_irrefl x), if_neg (lt_irrefl x)] at h2 ⊢
        exact ltChars_trans h1 h2
      · rw [if_neg (lt_asymm hyz), if_pos hyz] at h2; cases h2
    · rw [if_neg (lt_asymm hxy), if_pos hxy] at h1; cases h1

/-- `AddExtensionAttributes` on the `std::map` model: insert keeping keys
strictly sorted; inserting an existing key overwrites its value (the only
behaviour a `std::map<ov::String, ov::String>` admits). -/
def extInsert : List (List Char × List Char) → List Char → List Char →
    List (List Char × List Char)
  | [], k, v => [(k, v)]
  | (k', v') :: t, k, v =>
    if ltChars k k' then (k, v) :: (k', v') :: t
    else if ltChars k' k then (k', v') :: extInsert t k v
    else (k, v) :: t

/-- The map invariant of `std::map`: entries strictly sorted by key. -/
def extSorted (m : List (List Char × List Char)) : Prop :=
  List.Pairwise (fun a b => ltChars a.1 b.1 = true) m

instance (m : List (List Char × List Char)) : Decidable (extSorted m) := by
  unfold extSorted
  infer_instance

/-- Lookup in the map model (`std::map::find`). -/
def extLookup : List (List Char × List Char) → List Char → Option (List Char)
  | [], _ => none
  | (k, v) :: t, q => if k = q then some v else extLookup t q

theorem ltChars_not_gt {a b : List Char} (h : ltChars a b = true) :
    ¬ (ltChars b a = true) := by
  rw [ltChars_asymm h]
  simp

theorem extInsert_cons_lt {k k' v v' : List Char} {t : List (List Char × List Char)}
    (h : ltChars k k' = true) :
    extInsert ((k', v') :: t) k v = (k, v) :: (k', v') :: t := by
  simp only [extInsert, if_pos h]

theorem extInsert_cons_gt {k k' v v' : List Char} {t : List (List Char × List Char)}
    (h : ltChars k' k = true) :
    extInsert ((k', v') :: t) k v = (k', v') :: extInsert t k v := by
  simp only [extInsert, if_neg (ltChars_not_gt h), if_pos h]

theorem extInsert_cons_eq {k v v' : List Char} {t : List (List Char × List Char)} :
    extInsert ((k, v') :: t) k v = (k, v) :: t := by
  simp only [extInsert, ltChars_irrefl]
  simp

theorem extInsert_mem {m : List (List Char × List Char)} {k v : List Char} :
    ∀ x ∈ extInsert m k v, x = (k, v) ∨ x ∈ m := by
  induction m with
  | nil =>
    intro x hx
    simp only [extInsert, List.mem_singleton] at hx
    exact Or.inl hx
  | cons h t ih =>
    intro x hx
    obtain ⟨k', v'⟩ := h
    simp only [extInsert] at hx
    split at hx
    · rcases List.mem_cons.mp hx with he | hm
      · exact Or.inl he
      · exact Or.inr hm
    · split at hx
      · rcases List.mem_cons.mp hx with he | hm
        · exact Or.inr (he ▸ List.mem_cons_self _ _)
        · rcases ih x hm with h1 | h2
          · exact Or.inl h1
          · exact Or.inr (List.mem_cons_of_mem _ h2)
      · rcases List.mem_cons.mp hx with he | hm
        · exact Or.inl he
        · exact Or.inr (List.mem_cons_of_mem _ hm)

theorem extInsert_sorted {m : List (List Char × List Char)} (k v : List Char)
    (hs : extSorted m) : extSorted (extInsert m k v) := by
  induction m with
  | nil => exact List.pairwise_singleton _ _
  | cons h t ih =>
    obtain ⟨k', v'⟩ := h
    simp only [extSorted, List.pairwise_cons] at hs
    obtain ⟨hall, htail⟩ := hs
    by_cases h1 : ltChars k k' = true
    · rw [extInsert_cons_lt h1]
      simp only [extSorted, List.pairwise_cons]
      refine ⟨?_, hall, htail⟩
      intro x hx
      rcases List.mem_cons.mp hx with he | hm
      · subst he; exact h1
      · exact ltChars_trans h1 (hall x hm)
    · by_cases h2 : ltChars k' k = true
      · rw [extInsert_cons_gt h2]
        simp only [extSorted, List.pairwise_cons]
        refine ⟨?_, ih htail⟩
        intro x hx
        rcases extInsert_mem x hx with he | hm
        · subst he; exact h2
        · exact hall x hm
      · have hk : k = k' := ltChars_eq_of_not (by simpa using h1) (by simpa using h2)
        subst hk
        rw [extInsert_cons_eq]
        simp only [extSorted, List.pairwise_cons]
        exact ⟨hall, htail⟩

theorem extInsert_overwrite (m : List (List Char × List Char)) (k v w : List Char) :
    extInsert (extInsert m k v) k w = extInsert m k w := by
  induction m with
  | nil =>
    show extInsert [(k, v)] k w = [(k, w)]
    rw [extInsert_cons_eq]
  | cons h t ih =>
    obtain ⟨kh, vh⟩ := h
    by_cases h1 : ltChars k kh = true
    · rw [extInsert_cons_lt h1, extInsert_cons_eq, extInsert_cons_lt h1]
    · by_cases h2 : ltChars kh k = true
      · rw [extInsert_cons_gt h2, extInsert_cons_gt h2, ih, extInsert_cons_gt h2]
      · have hk : k = kh := ltChars_eq_of_not (by simpa using h1) (by simpa using h2)
        subst hk
        rw [extInsert_cons_eq, extInsert_cons_eq, extInsert_cons_eq]

theorem extInsert_comm_lt {m : List (List Char × List Char)} {k k' : List Char}
    (hkk : ltChars k k' = true) (v v' : List Char) :
    extInsert (extInsert m k v) k' v' = extInsert (extInsert m k' v') k v := by
  induction m with
  | nil =>
    show extInsert [(k, v)] k' v' = extInsert [(k', v')] k v
    rw [extInsert_cons_gt hkk, extInsert_cons_lt hkk]
    rfl
  | cons h t ih =>
    obtain ⟨kh, vh⟩ := h
    by_cases h1 : ltChars k kh = true
    · rw [extInsert_cons_lt h1, extInsert_cons_gt hkk]
      by_cases h3 : ltChars k' kh = true
      · rw [extInsert_cons_lt h3, extInsert_cons_lt hkk]
      · by_cases h4 : ltChars kh k' = true
        · rw [extInsert_cons_gt h4, extInsert_cons_lt h1]
        · have hk : k' = kh := ltChars_eq_of_not (by simpa using h3) (by simpa using h4)
          subst hk
          rw [extInsert_cons_eq, extInsert_cons_lt hkk]
    · by_cases h2 : ltChars kh k = true
      · have hk3 : ltChars kh k' = true := ltChars_trans h2 hkk
        rw [extInsert_cons_gt h2, extInsert_cons_gt hk3, extInsert_cons_gt hk3,
          extInsert_cons_gt h2, ih]
      · have hk : k = kh := ltChars_eq_of_not (by simpa using h1) (by simpa using h2)
        subst hk
        rw [extInsert_cons_eq, extInsert_cons_gt hkk, extInsert_cons_gt hkk,
          extInsert_cons_eq]

theorem extInsert_comm {m : List (List Char × List Char)} {k k' : List Char}
    (hkk : ltChars k k' = true ∨ ltChars k' k = true) (v v' : List Char) :
    extInsert (extInsert m k v) k' v' = extInsert (extInsert m k' v') k v := by
  rcases hkk with h | h
  · exact extInsert_comm_lt h v v'
  · exact (extInsert_comm_lt h v' v).symm

theorem extLookup_none_keys {m : List (List Char × List Char)} {q : List Char}
    (h : extLookup m q = none) : ∀ x ∈ m, x.1 ≠ q := by
  induction m with
  | nil => intro x hx; cases hx
  | cons hd t ih =>
    obtain ⟨k, v⟩ := hd
    intro x hx
    simp only [extLookup] at h
    split at h
    · cases h
    · rename_i hne
      rcases List.mem_cons.mp hx with he | hm
      · subst he; exact hne
      · exact ih h x hm

/-- Collect extension pairs into the `std::map` model, in input order
(mirrors repeated `AddExtensionAttributes` calls). -/
def extOfPairs (pairs : List (List Char × List Char)) : List (List Char × List Char) :=
  pairs.foldl (fun m kv => extInsert m kv.1 kv.2) []

theorem extOfPairs_fold_sorted (l : List (List Char × List Char)) :
    ∀ m, extSorted m →
      extSorted (l.foldl (fun m kv => extInsert m kv.1 kv.2) m) := by
  induction l with
  | nil => intro m hm; exact hm
  | cons kv t ih =>
    intro m hm
    exact ih (extInsert m kv.1 kv.2) (extInsert_sorted _ _ hm)

theorem extOfPairs_sorted (l : List (List Char × List Char)) : extSorted (extOfPairs l) :=
  extOfPairs_fold_sorted l [] List.Pairwise.nil

theorem extInsert_append_of_gt {m : List (List Char × List Char)} {k : List Char}
    (h : ∀ x ∈ m, ltChars x.1 k = true) (v : List Char) :
    extInsert m k v = m ++ [(k, v)] := by
  induction m with
  | nil => rfl
  | cons hd t ih =>
    obtain ⟨kh, vh⟩ := hd
    have hh : ltChars kh k = true := h (kh, vh) (List.mem_cons_self _ _)
    rw [extInsert_cons_gt hh, ih (fun x hx => h x (List.mem_cons_of_mem _ hx))]
    rfl

theorem extOfPairs_fold_id (l : List (List Char × List Char)) :
    ∀ m, extSorted (m ++ l) →
      l.foldl (fun m kv => extInsert m kv.1 kv.2) m = m ++ l := by
  induction l with
  | nil => intro m _; simp
  | cons kv t ih =>
    intro m hm
    obtain ⟨k, v⟩ := kv
    have hgt : ∀ x ∈ m, ltChars x.1 k = true := by
      intro x hx
      have := (List.pairwise_append.mp hm).2.2 x hx (k, v) (List.mem_cons_self _ _)
      exact this
    show t.foldl (fun m kv => extInsert m kv.1 kv.2) (extInsert m k v) = m ++ (k, v) :: t
    rw [extInsert_append_of_gt hgt]
    have hm2 : extSorted ((m ++ [(k, v)]) ++ t) := by
      have : (m ++ [(k, v)]) ++ t = m ++ (k, v) :: t := by simp
      rw [this]
      exact hm
    rw [ih (m ++ [(k, v)]) hm2]
    simp

/-- An already-sorted pair list reinserts to itself. -/
theorem extOfPairs_of_sorted {l : List (List Char × List Char)} (h : extSorted l) :
    extOfPairs l = l :=
  extOfPairs_fold_id l [] (by simpa using h)

theorem extOfPairs_fold_mem (l : List (List Char × List Char)) :
    ∀ (m : List (List Char × List Char)) (x),
      x ∈ l.foldl (fun m kv => extInsert m kv.1 kv.2) m → x ∈ m ∨ x ∈ l := by
  induction l with
  | nil => intro m x hx; exact Or.inl hx
  | cons kv t ih =>
    intro m x hx
    rcases ih (extInsert m kv.1 kv.2) x hx with hm | hl
    · rcases extInsert_mem x hm with he | hmm
      · exact Or.inr (by rw [he]; exact List.mem_cons_self _ _)
      · exact Or.inl hmm
    · exact Or.inr (List.mem_cons_of_mem _ hl)

theorem extOfPairs_mem {l : List (List Char × List Char)} {x : List Char × List Char}
    (h : x ∈ extOfPairs l) : x ∈ l := by
  rcases extOfPairs_fold_mem l [] x h with hm | hl
  · cases hm
  · exact hl

/-- Flatten map entries back into the token stream, in stored (key)
order. -/
def flattenPairs : List (List Char × List Char) → List (List Char)
  | [] => []
  | (k, v) :: t => k :: v :: flattenPairs t

/-- Pair up the extension tokens left after the fixed fields (and raddr /
rport); an odd number of remaining tokens is a parse failure. -/
def parseExtPairs : List (List Char) → Option (List (List Char × List Char))
  | [] => some []
  | [_] => none
  | k :: v :: rest =>
    match parseExtPairs rest with
    | some l => some ((k, v) :: l)
    | none => none

theorem parseExtPairs_flattenPairs : ∀ l : List (List Char × List Char),
    parseExtPairs (flattenPairs l) = some l
  | [] => rfl
  | (k, v) :: t => by
    show parseExtPairs (k :: v :: flattenPairs t) = some ((k, v) :: t)
    match t with
    | [] => rfl
    | u :: t2 =>
      show (match parseExtPairs (flattenPairs (u :: t2)) with
        | some l => some ((k, v) :: l)
        | none => none) = _
      rw [parseExtPairs_flattenPairs (u :: t2)]

theorem parseExtPairs_mem {ts : List (List Char)} {l : List (List Char × List Char)}
    (h : parseExtPairs ts = some l) : ∀ kv ∈ l, kv.1 ∈ ts ∧ kv.2 ∈ ts := by
  induction ts using parseExtPairs.induct generalizing l with
  | case1 =>
    cases h
    intro kv hkv
    cases hkv
  | case2 x =>
    cases h
  | case3 k v rest lr hr ih =>
    simp only [parseExtPairs, hr] at h
    cases h
    intro kv hkv
    rcases List.mem_cons.mp hkv with he | hm
    · subst he
      exact ⟨List.mem_cons_self _ _, List.mem_cons_of_mem _ (List.mem_cons_self _ _)⟩
    · have := ih hr kv hm
      exact ⟨List.mem_cons_of_mem _ (List.mem_cons_of_mem _ this.1),
        List.mem_cons_of_mem _ (List.mem_cons_of_mem _ this.2)⟩
  | case4 k v rest hr =>
    simp only [parseExtPairs, hr] at h
    cases h

/-- Mirrors `TcpCandidateType` (RFC 6544): `None` for UDP candidates. -/
inductive TcpCandidateType where
  | None
  | Active
  | Passive
  | So
deriving DecidableEq, Repr

/-- Mirrors the fields of `IceCandidate` (header `ice_candidate.h`), with
`ov::String` as `List Char`; numeric fields carry their C++ width
(`uint32_t` for `_component_id` and `_priority`, 16-bit for ports).  The
lazily derived `_address` (`ov::SocketAddress`) is omitted: the spec makes
the string form authoritative and tolerates resolution failure. -/
structure IceCandidate where
  foundation : List Char
  component_id : Nat
  transport : List Char
  priority : Nat
  address : List Char
  port : Nat
  candidate_types : List Char
  rel_addr : List Char
  rel_port : Nat
  extensions : List (List Char × List Char)
  tcp_type : TcpCandidateType
deriving DecidableEq, Repr

def typTok : List Char := ['t', 'y', 'p']
def raddrTok : List Char := ['r', 'a', 'd', 'd', 'r']
def rportTok : List Char := ['r', 'p', 'o', 'r', 't']
def tcptypeTok : List Char := ['t', 'c', 'p', 't', 'y', 'p', 'e']
def activeTok : List Char := ['a', 'c', 't', 'i', 'v', 'e']
def passiveTok : List Char := ['p', 'a', 's', 's', 'i', 'v', 'e']
def soTok : List Char := ['s', 'o']
def tcpTok : List Char := ['T', 'C', 'P']
def candHeader : List Char := ['c', 'a', 'n', 'd', 'i', 'd', 'a', 't', 'e', ':']

/-- Modelled from the spec: the `tcp_type` a parse derives for a TCP
candidate from its `tcptype active|passive|so` extension (retained
verbatim in `extensions`); `None` for non-TCP transports or absent /
unrecognised values. -/
def deriveTcp (tr : List Char) (ext : List (List Char × List Char)) : TcpCandidateType :=
  if upperChars tr = tcpTok then
    match extLookup ext tcptypeTok with
    | some v =>
      if v = activeTok then TcpCandidateType.Active
      else if v = passiveTok then TcpCandidateType.Passive
      else if v = soTok then TcpCandidateType.So
      else TcpCandidateType.None
    | none => TcpCandidateType.None
  else TcpCandidateType.None

/-- A numeric SDP token: nonempty, all decimal digits. -/
def parseNatTok (l : List Char) : Option Nat :=
  if l ≠ [] ∧ l.all isDigitCh then some (charsNat l) else none

/-- The optional `raddr SP addr` pair after the candidate type. -/
def parseRaddr : List (List Char) → List Char × List (List Char)
  | r :: a :: t => if r = raddrTok then (a, t) else ([], r :: a :: t)
  | ts => ([], ts)

/-- The optional `rport SP port` pair; a non-numeric port is a parse
failure, absence leaves the default 0. -/
def parseRport : List (List Char) → Option (Nat × List (List Char))
  | r :: p :: t =>
    if r = rportTok then
      match parseNatTok p with
      | some n => some (n, t)
      | none => none
    else some (0, r :: p :: t)
  | ts => some (0, ts)

/-- Modelled from the spec: `IceCandidate::ParseFromString` at the token
level (RFC 5245 §15.1 grammar of §4.2 of the spec): positional fields
`foundation component-id transport priority address port "typ" cand-type`,
then optional `raddr`/`rport`, then extension pairs. -/
def parseTokens (ts : List (List Char)) : Option IceCandidate :=
  match ts with
  | f :: cid :: tr :: pri :: addr :: prt :: ty :: ctype :: rest =>
    if ty = typTok then
      (parseNatTok cid).bind fun cidN =>
      (parseNatTok pri).bind fun priN =>
      (parseNatTok prt).bind fun portN =>
      (parseRport (parseRaddr rest).2).bind fun rp =>
      (parseExtPairs rp.2).bind fun pairs =>
      some { foundation := f
             component_id := cidN % 2 ^ 32
             transport := tr
             priority := priN % 2 ^ 32
             address := addr
             port := portN % 2 ^ 16
             candidate_types := ctype
             rel_addr := (parseRaddr rest).1
             rel_port := rp.1 % 2 ^ 16
             extensions := extOfPairs pairs
             tcp_type := deriveTcp tr (extOfPairs pairs) }
    else none
  | _ => none

/-- Drop the optional leading `candidate:` marker. -/
def stripCandHeader (l : List Char) : List Char :=
  if l.take 10 = candHeader then l.drop 10 else l

/-- Modelled from the spec: `IceCandidate::ParseFromString` — split the
line on single ASCII SP and parse the token sequence. -/
def parseFromString (l : List Char) : Option IceCandidate :=
  parseTokens (splitSp (stripCandHeader l))

/-- Modelled from the spec: the token sequence `GetCandidateString`
emits — fixed fields (transport upper-cased), `raddr`/`rport` iff
`rel_addr` is nonempty, then the extension pairs in stored (key) order. -/
def emitTokens (c : IceCandidate) : List (List Char) :=
  c.foundation :: natToChars c.component_id :: upperChars c.transport ::
    natToChars c.priority :: c.address :: natToChars c.port :: typTok ::
    c.candidate_types ::
    ((if c.rel_addr = [] then []
      else [raddrTok, c.rel_addr, rportTok, natToChars c.rel_port]) ++
      flattenPairs c.extensions)

/-- Modelled from the spec: `IceCandidate::GetCandidateString`, the
`candidate:`-prefixed SP-joined serialization. -/
def candString (c : IceCandidate) : List Char := candHeader ++ joinSp (emitTokens c)

/-- Modelled from the spec: the static `IceCandidate::CalculatePriority`
(RFC 5245 §4.1.2.1), in 32-bit unsigned arithmetic. -/
def CalculatePriority (tp lp cid : Nat) : Nat :=
  (2 ^ 24 * tp + 2 ^ 8 * lp + (256 - cid)) % 2 ^ 32

theorem parseNatTok_natToChars (n : Nat) : parseNatTok (natToChars n) = some n := by
  unfold parseNatTok
  rw [if_pos ⟨natToChars_ne_nil n, by
      rw [List.all_eq_true]
      intro ch hch
      exact (natToChars_digits n ch hch).1⟩]
  rw [charsNat_natToChars]

theorem stripCandHeader_append (x : List Char) :
    stripCandHeader (candHeader ++ x) = x := by
  unfold stripCandHeader
  have h1 : (candHeader ++ x).take 10 = candHeader := by
    rw [show (10 : Nat) = candHeader.length from rfl]
    exact List.take_left candHeader x
  rw [if_pos h1]
  rw [show (10 : Nat) = candHeader.length from rfl]
  exact List.drop_left candHeader x

theorem parseRaddr_fst (ts : List (List Char)) :
    (parseRaddr ts).1 = [] ∨ (parseRaddr ts).1 ∈ ts := by
  match ts with
  | [] => exact Or.inl rfl
  | [r] => exact Or.inl rfl
  | r :: a :: t =>
    simp only [parseRaddr]
    split
    · exact Or.inr (List.mem_cons_of_mem _ (List.mem_cons_self _ _))
    · exact Or.inl rfl

theorem parseRaddr_sub (ts : List (List Char)) :
    ∀ x ∈ (parseRaddr ts).2, x ∈ ts := by
  match ts with
  | [] => intro x hx; exact hx
  | [r] => intro x hx; exact hx
  | r :: a :: t =>
    intro x hx
    revert hx
    show x ∈ (if r = raddrTok then (a, t) else ([], r :: a :: t)).2 → _
    split
    · intro hx
      exact List.mem_cons_of_mem _ (List.mem_cons_of_mem _ hx)
    · intro hx
      exact hx

theorem parseRport_sub {ts : List (List Char)} {n : Nat} {ts' : List (List Char)}
    (h : parseRport ts = some (n, ts')) : ∀ x ∈ ts', x ∈ ts := by
  match ts with
  | [] =>
    cases h
    intro x hx
    exact hx
  | [r] =>
    cases h
    intro x hx
    exact hx
  | r :: p :: t =>
    simp only [parseRport] at h
    split at h
    · split at h
      · cases h
        intro x hx
        exact List.mem_cons_of_mem _ (List.mem_cons_of_mem _ hx)
      · cases h
    · cases h
      intro x hx
      exact hx

theorem flattenPairs_mem : ∀ {l : List (List Char × List Char)} {tok : List Char},
    tok ∈ flattenPairs l → ∃ kv ∈ l, tok = kv.1 ∨ tok = kv.2 := by
  intro l
  induction l with
  | nil => intro tok htok; cases htok
  | cons kv t ih =>
    obtain ⟨k, v⟩ := kv
    intro tok htok
    rcases List.mem_cons.mp htok with he | htok2
    · exact ⟨(k, v), List.mem_cons_self _ _, Or.inl he⟩
    · rcases List.mem_cons.mp htok2 with he | htok3
      · exact ⟨(k, v), List.mem_cons_self _ _, Or.inr he⟩
      · obtain ⟨kv2, hkv2, hor⟩ := ih htok3
        exact ⟨kv2, List.mem_cons_of_mem _ hkv2, hor⟩

theorem parseRaddr_flatten {E : List (List Char × List Char)}
    (hk : ∀ kv ∈ E, kv.1 ≠ raddrTok) :
    parseRaddr (flattenPairs E) = ([], flattenPairs E) := by
  match E with
  | [] => rfl
  | (k, v) :: t =>
    have hne : k ≠ raddrTok := hk (k, v) (List.mem_cons_self _ _)
    simp [flattenPairs, parseRaddr, hne]

theorem parseRport_flatten {E : List (List Char × List Char)}
    (hk : ∀ kv ∈ E, kv.1 ≠ rportTok) :
    parseRport (flattenPairs E) = some (0, flattenPairs E) := by
  match E with
  | [] => rfl
  | (k, v) :: t =>
    have hne : k ≠ rportTok := hk (k, v) (List.mem_cons_self _ _)
    simp [flattenPairs, parseRport, hne]

theorem modmod (a n : Nat) (hn : 0 < n) : a % n % n = a % n :=
  Nat.mod_eq_of_lt (Nat.mod_lt _ hn)

theorem typTok_noSp : noSp typTok := by
  intro ch hch
  simp only [typTok, List.mem_cons, List.not_mem_nil, or_false] at hch
  rcases hch with rfl | rfl | rfl <;> decide

theorem raddrTok_noSp : noSp raddrTok := by
  intro ch hch
  simp only [raddrTok, List.mem_cons, List.not_mem_nil, or_false] at hch
  rcases hch with rfl | rfl | rfl | rfl | rfl <;> decide

theorem rportTok_noSp : noSp rportTok := by
  intro ch hch
  simp only [rportTok, List.mem_cons, List.not_mem_nil, or_false] at hch
  rcases hch with rfl | rfl | rfl | rfl | rfl <;> decide

/-- C9 (amended): for a candidate `c` produced by `parse`, reparsing its
serialization reproduces `c` exactly, provided (a) `c.transport` is
already upper-case (the code normalizes the transport only on emission,
so a lower-case parsed transport changes under a round trip), and (b) when
`c` has no related address, its related port is 0 and no extension is
named `raddr` or `rport` (emission drops an orphan `rport` and emits
extensions in key order, where such names would be re-absorbed by the
`raddr`/`rport` grammar slots).  Extensions live in a `std::map`, so
structural equality of the sorted entry lists is multiset equality of the
stored pairs. -/
theorem c9_round_trip (s : List Char) (c : IceCandidate)
    (hp : parseFromString s = some c)
    (htr : upperChars c.transport = c.transport)
    (hra : c.rel_addr = [] → c.rel_port = 0 ∧
      extLookup c.extensions raddrTok = none ∧ extLookup c.extensions rportTok = none) :
    parseFromString (candString c) = some c := by
  unfold parseFromString at hp
  obtain ⟨ts, hts⟩ : ∃ ts, splitSp (stripCandHeader s) = ts := ⟨_, rfl⟩
  rw [hts] at hp
  have hns : ∀ t ∈ ts, noSp t := fun t ht => splitSp_mem_noSp _ t (hts ▸ ht)
  clear hts
  rcases ts with _ | ⟨f, _ | ⟨cid, _ | ⟨tr, _ | ⟨pri, _ | ⟨addr, _ | ⟨prt, _ | ⟨ty, _ |
    ⟨ctype, rest⟩⟩⟩⟩⟩⟩⟩⟩ <;>
    first
      | (simp only [parseTokens] at hp; cases hp)
      | skip
  simp only [parseTokens] at hp
  split_ifs at hp with hty
  simp only [Option.bind_eq_some] at hp
  obtain ⟨cidN, hcid, priN, hpri, portN, hport, rp, hrp, pairs, hpairs, hc⟩ := hp
  obtain ⟨rpn, rpl⟩ := rp
  simp only [Option.some.injEq] at hc
  subst hc
  dsimp only at htr hra hrp hpairs
  -- no-space facts about the emitted tokens
  have hrest : ∀ x ∈ rest, noSp x := fun x hx => hns x (by simp [hx])
  have hfns : noSp f := hns f (by simp)
  have htrns : noSp tr := hns tr (by simp)
  have haddrns : noSp addr := hns addr (by simp)
  have hctyns : noSp ctype := hns ctype (by simp)
  have hrans : noSp (parseRaddr rest).1 := by
    rcases parseRaddr_fst rest with h | h
    · rw [h]; intro ch hch; cases hch
    · exact hrest _ h
  have hextmem : ∀ kv ∈ extOfPairs pairs, noSp kv.1 ∧ noSp kv.2 := by
    intro kv hkv
    have h1 := extOfPairs_mem hkv
    have h2 := parseExtPairs_mem hpairs kv h1
    have h3 := parseRport_sub hrp
    have h4 := parseRaddr_sub rest
    exact ⟨hrest _ (h4 _ (h3 _ h2.1)), hrest _ (h4 _ (h3 _ h2.2))⟩
  have hflatns : ∀ tok ∈ flattenPairs (extOfPairs pairs), noSp tok := by
    intro tok htok
    obtain ⟨kv, hkv, hor⟩ := flattenPairs_mem htok
    rcases hor with h | h
    · exact h ▸ (hextmem kv hkv).1
    · exact h ▸ (hextmem kv hkv).2
  have hdigns : ∀ n : Nat, noSp (natToChars n) :=
    fun n ch hch => (natToChars_digits n ch hch).2
  -- the serialization and its token list
  unfold candString parseFromString
  rw [stripCandHeader_append]
  by_cases hcase : (parseRaddr rest).1 = []
  · obtain ⟨h0, hlra, hlrp⟩ := hra hcase
    have hemit : emitTokens
        { foundation := f, component_id := cidN % 2 ^ 32, transport := tr,
          priority := priN % 2 ^ 32, address := addr, port := portN % 2 ^ 16,
          candidate_types := ctype, rel_addr := (parseRaddr rest).1,
          rel_port := rpn % 2 ^ 16, extensions := extOfPairs pairs,
          tcp_type := deriveTcp tr (extOfPairs pairs) } =
        f :: natToChars (cidN % 2 ^ 32) :: tr :: natToChars (priN % 2 ^ 32) ::
          addr :: natToChars (portN % 2 ^ 16) :: typTok :: ctype ::
          flattenPairs (extOfPairs pairs) := by
      simp only [emitTokens]
      rw [htr, if_pos hcase, List.nil_append]
    rw [hemit]
    rw [splitSp_joinSp _ _ hfns ?hall]
    case hall =>
      intro tok htok
      simp only [List.mem_cons] at htok
      rcases htok with rfl | rfl | rfl | rfl | rfl | rfl | rfl | hm
      · exact hdigns _
      · exact htrns
      · exact hdigns _
      · exact haddrns
      · exact hdigns _
      · exact typTok_noSp
      · exact hctyns
      · exact hflatns tok hm
    simp only [parseTokens, if_pos rfl]
    rw [parseNatTok_natToChars, parseNatTok_natToChars, parseNatTok_natToChars]
    simp only [Option.some_bind]
    rw [parseRaddr_flatten (extLookup_none_keys hlra)]
    rw [parseRport_flatten (extLookup_none_keys hlrp)]
    simp only [Option.some_bind]
    rw [parseExtPairs_flattenPairs]
    simp only [Option.some_bind]
    rw [extOfPairs_of_sorted (extOfPairs_sorted pairs)]
    simp only [ite_true, Option.some.injEq, IceCandidate.mk.injEq]
    simp only [modmod _ _ (show (0 : Nat) < 2 ^ 32 by norm_num),
      modmod _ _ (show (0 : Nat) < 2 ^ 16 by norm_num)]
    have h0' : rpn % 65536 = 0 := by
      rw [show (65536 : Nat) = 2 ^ 16 from by norm_num]
      exact h0
    simp [hcase, h0, h0']
  · have hemit : emitTokens
        { foundation := f, component_id := cidN % 2 ^ 32, transport := tr,
          priority := priN % 2 ^ 32, address := addr, port := portN % 2 ^ 16,
          candidate_types := ctype, rel_addr := (parseRaddr rest).1,
          rel_port := rpn % 2 ^ 16, extensions := extOfPairs pairs,
          tcp_type := deriveTcp tr (extOfPairs pairs) } =
        f :: natToChars (cidN % 2 ^ 32) :: tr :: natToChars (priN % 2 ^ 32) ::
          addr :: natToChars (portN % 2 ^ 16) :: typTok :: ctype ::
          raddrTok :: (parseRaddr rest).1 :: rportTok :: natToChars (rpn % 2 ^ 16) ::
          flattenPairs (extOfPairs pairs) := by
      simp only [emitTokens]
      rw [htr, if_neg hcase]
      rfl
    rw [hemit]
    rw [splitSp_joinSp _ _ hfns ?hall2]
    case hall2 =>
      intro tok htok
      simp only [List.mem_cons] at htok
      rcases htok with rfl | rfl | rfl | rfl | rfl | rfl | rfl | rfl | rfl | rfl | rfl | hm
      · exact hdigns _
      · exact htrns
      · exact hdigns _
      · exact haddrns
      · exact hdigns _
      · exact typTok_noSp
      · exact hctyns
      · exact raddrTok_noSp
      · exact hrans
      · exact rportTok_noSp
      · exact hdigns _
      · exact hflatns tok hm
    simp only [parseTokens, if_pos rfl]
    rw [parseNatTok_natToChars, parseNatTok_natToChars, parseNatTok_natToChars]
    simp only [Option.some_bind]
    have hpr : parseRaddr (raddrTok :: (parseRaddr rest).1 :: rportTok ::
        natToChars (rpn % 2 ^ 16) :: flattenPairs (extOfPairs pairs)) =
        ((parseRaddr rest).1, rportTok :: natToChars (rpn % 2 ^ 16) ::
          flattenPairs (extOfPairs pairs)) := by
      simp [parseRaddr]
    rw [hpr]
    have hpp : parseRport (rportTok :: natToChars (rpn % 2 ^ 16) ::
        flattenPairs (extOfPairs pairs)) =
        some (rpn % 2 ^ 16, flattenPairs (extOfPairs pairs)) := by
      simp [parseRport, parseNatTok_natToChars]
    rw [hpp]
    simp only [Option.some_bind]
    rw [parseExtPairs_flattenPairs]
    simp only [Option.some_bind]
    rw [extOfPairs_of_sorted (extOfPairs_sorted pairs)]
    simp only [ite_true, Option.some.injEq, IceCandidate.mk.injEq]
    simp only [modmod _ _ (show (0 : Nat) < 2 ^ 32 by norm_num),
      modmod _ _ (show (0 : Nat) < 2 ^ 16 by norm_num)]
    simp

/-- A candidate parsed from a line with a lower-case transport. -/
def lowerUdpCand : IceCandidate :=
  { foundation := ['f'], component_id := 1, transport := ['u', 'd', 'p'],
    priority := 5, address := ['a'], port := 6,
    candidate_types := ['h', 'o', 's', 't'], rel_addr := [], rel_port := 0,
    extensions := [], tcp_type := TcpCandidateType.None }

/-- A candidate with upper-case transport, related address/port and two
extension attributes. -/
def upperUdpCand : IceCandidate :=
  { foundation := ['0'], component_id := 1, transport := ['U', 'D', 'P'],
    priority := 2130706431, address := "192.168.0.183".toList, port := 10000,
    candidate_types := "srflx".toList, rel_addr := "1.2.3.4".toList, rel_port := 9,
    extensions := [("generation".toList, ['0']), ("tcptype".toList, "active".toList)],
    tcp_type := TcpCandidateType.None }

/-- C7 counterexample: `_extension_attributes` is a
`std::map<ov::String, ov::String>`, so adding the name `a` twice keeps a
single entry with the last value (repeated attribute names are not
admitted), and entries added as `b` then `a` are stored — and therefore
emitted — in key order `a, b`, not insertion order. -/
theorem c7_extension_fidelity_cex :
    extInsert (extInsert [] ['a'] ['1']) ['a'] ['2'] = [(['a'], ['2'])] ∧
    flattenPairs (extInsert (extInsert [] ['b'] ['1']) ['a'] ['2']) =
      [['a'], ['2'], ['b'], ['1']] := by decide

/-- C7 (amended): the extensions collection is a keyed map with unique
attribute names — inserting keeps the entries strictly sorted by key,
inserting an existing name overwrites its value, and inserting two
distinct names in either order yields the same map (so equality ignores
insertion order, i.e. is multiset equality of the stored pairs);
serialization emits the pairs in ascending key order, not insertion
order. -/
theorem c7_extension_fidelity (m : List (List Char × List Char)) (k k' v v' w : List Char)
    (hs : extSorted m) :
    extSorted (extInsert m k v) ∧
    extInsert (extInsert m k v) k w = extInsert m k w ∧
    ((ltChars k k' = true ∨ ltChars k' k = true) →
      extInsert (extInsert m k v) k' v' = extInsert (extInsert m k' v') k v) :=
  ⟨extInsert_sorted k v hs, extInsert_overwrite m k v w, fun h => extInsert_comm h v v'⟩

/-- C7 witness: on the sorted one-entry map `{a ↦ 1}`, inserting `b` keeps
sortedness, re-inserting `b` overwrites, and inserting `b` and `c` in
either order agrees. -/
theorem c7_extension_fidelity_witness :
    extSorted [(['a'], ['1'])] ∧
    (extSorted (extInsert [(['a'], ['1'])] ['b'] ['2']) ∧
      extInsert (extInsert [(['a'], ['1'])] ['b'] ['2']) ['b'] ['9'] =
        extInsert [(['a'], ['1'])] ['b'] ['9'] ∧
      ((ltChars ['b'] ['c'] = true ∨ ltChars ['c'] ['b'] = true) →
        extInsert (extInsert [(['a'], ['1'])] ['b'] ['2']) ['c'] ['3'] =
          extInsert (extInsert [(['a'], ['1'])] ['c'] ['3']) ['b'] ['2'])) :=
  ⟨by decide, c7_extension_fidelity [(['a'], ['1'])] ['b'] ['c'] ['2'] ['3'] ['9'] (by decide)⟩

/-- C8: for `type_preference ≤ 126`, `local_preference ≤ 65535` and
`component_id` in `[1, 256]`, `CalculatePriority` equals
`2²⁴·tp + 2⁸·lp + (256 − cid)` — the 32-bit reduction never truncates in
those ranges. -/
theorem c8_calculate_priority (tp lp cid : Nat) (h1 : tp ≤ 126) (h2 : lp ≤ 65535)
    (h3 : 1 ≤ cid) (h4 : cid ≤ 256) :
    CalculatePriority tp lp cid = 2 ^ 24 * tp + 2 ^ 8 * lp + (256 - cid) := by
  unfold CalculatePriority
  apply Nat.mod_eq_of_lt
  have e1 : (2 : Nat) ^ 24 = 16777216 := by norm_num
  have e2 : (2 : Nat) ^ 8 = 256 := by norm_num
  have e3 : (2 : Nat) ^ 32 = 4294967296 := by norm_num
  rw [e1, e2, e3]
  omega

/-- C8 witness: the maximal in-range inputs give the RFC 5245 host-UDP
priority 2130706431 with no truncation. -/
theorem c8_calculate_priority_witness :
    (126 ≤ 126 ∧ 65535 ≤ 65535 ∧ 1 ≤ 1 ∧ 1 ≤ 256) ∧
    CalculatePriority 126 65535 1 = 2130706431 := by
  refine ⟨by decide, ?_⟩
  have h := c8_calculate_priority 126 65535 1 (by decide) (by decide) (by decide) (by decide)
  rw [h]
  norm_num

/-- C9 counterexample: parsing `f 1 udp 5 a 6 typ host` yields a candidate
with transport `udp`; its serialization upper-cases the transport to
`UDP`, so reparsing produces a structurally different candidate — the
round trip fails as originally claimed. -/
theorem c9_round_trip_cex :
    parseFromString ("f 1 udp 5 a 6 typ host".toList) = some lowerUdpCand ∧
    parseFromString (candString lowerUdpCand) ≠ some lowerUdpCand := by
  exact ⟨by decide, by decide⟩

/-- C9 witness: a parsed candidate with upper-case transport, a related
address and port, and extensions round-trips exactly. -/
theorem c9_round_trip_witness :
    parseFromString
        ("candidate:0 1 UDP 2130706431 192.168.0.183 10000 typ srflx raddr 1.2.3.4 rport 9 generation 0 tcptype active".toList) =
      some upperUdpCand ∧
    upperChars upperUdpCand.transport = upperUdpCand.transport ∧
    (upperUdpCand.rel_addr = [] → upperUdpCand.rel_port = 0 ∧
      extLookup upperUdpCand.extensions raddrTok = none ∧
      extLookup upperUdpCand.extensions rportTok = none) ∧
    parseFromString (candString upperUdpCand) = some upperUdpCand := by
  refine ⟨by decide, by decide, by decide, ?_⟩
  exact c9_round_trip
    ("candidate:0 1 UDP 2130706431 192.168.0.183 10000 typ srflx raddr 1.2.3.4 rport 9 generation 0 tcptype active".toList)
    upperUdpCand (by decide) (by decide) (by decide)

end IceCand
